import Mathlib

/-!
# Verification of the node-pagefind search client core

Shallow embedding of `src/pagefind-client.ts` (plus the thin value-level parts of
`src/wasm-bridge.ts` it depends on).  JavaScript strings are modelled as lists of
Unicode code points (`List Nat`); JavaScript numbers appearing as integral values
(word offsets, counts, indices) are modelled as `Int`/`Nat` and fractional scores
(`balanced_score`, weights) as `ℚ`.  `NaN` produced by `parseInt`/`parseFloat`
is modelled as `Option.none`.  The opaque WASM engine is an external collaborator
and is modelled as an oracle record of string functions.  `Date.now()` durations
are abstracted as parameters (they only feed the `timings` fields of the result).
-/

namespace Pagefind

/-- Code points of a Lean string literal, used to write concrete JS strings. -/
def strCodes (s : String) : List Nat := s.toList.map Char.toNat

/-- The ECMAScript whitespace set used by `String.prototype.trim` and the regex
class `\s` (WhiteSpace ∪ LineTerminator). -/
def isJsWs (n : Nat) : Bool :=
  n = 32 || n = 9 || n = 10 || n = 11 || n = 12 || n = 13 ||
  n = 160 || n = 0x1680 || (0x2000 ≤ n && n ≤ 0x200A) ||
  n = 0x2028 || n = 0x2029 || n = 0x202F || n = 0x205F || n = 0x3000 || n = 0xFEFF

/-- The fixed punctuation set stripped by the query normalizer:
`` [.`~!@#$%^&*(){}[\]\\|:;'",<>/?\-] `` in `PagefindClient.search`. -/
def isPunct (n : Nat) : Bool :=
  n = 46 || n = 96 || n = 126 || n = 33 || n = 64 || n = 35 || n = 36 ||
  n = 37 || n = 94 || n = 38 || n = 42 || n = 40 || n = 41 || n = 123 ||
  n = 125 || n = 91 || n = 93 || n = 92 || n = 124 || n = 58 || n = 59 ||
  n = 39 || n = 34 || n = 44 || n = 60 || n = 62 || n = 47 || n = 63 || n = 45

/-- ASCII lowercasing, the effect of `String.prototype.toLowerCase` on the
code points this client's query pipeline distinguishes. -/
def toLowerNat (n : Nat) : Nat := if 65 ≤ n ∧ n ≤ 90 then n + 32 else n

/-- `String.prototype.trim`: drop leading JS whitespace. -/
def trimLeft (l : List Nat) : List Nat := l.dropWhile isJsWs

/-- `String.prototype.trim`: drop trailing JS whitespace. -/
def trimRight (l : List Nat) : List Nat := (l.reverse.dropWhile isJsWs).reverse

/-- `String.prototype.trim`. -/
def trimWs (l : List Nat) : List Nat := trimRight (trimLeft l)

/-- Scanner state for `replace(/\s{2,}/g, ' ')`: outside a whitespace run, in a
run of exactly one whitespace char `c` so far, or in a run of length ≥ 2. -/
inductive WsRun where
  | outside : WsRun
  | one : Nat → WsRun
  | many : WsRun

/-- Left-to-right scanner for `replace(/\s{2,}/g, ' ')`: a maximal run of two or
more whitespace code points is replaced by a single space (32); a lone
whitespace char is kept verbatim. -/
def collapseAux : WsRun → List Nat → List Nat
  | .outside, [] => []
  | .one c, [] => [c]
  | .many, [] => [32]
  | .outside, c :: cs => if isJsWs c then collapseAux (.one c) cs else c :: collapseAux .outside cs
  | .one w, c :: cs => if isJsWs c then collapseAux .many cs else w :: c :: collapseAux .outside cs
  | .many, c :: cs => if isJsWs c then collapseAux .many cs else 32 :: c :: collapseAux .outside cs

/-- `replace(/\s{2,}/g, ' ')`. -/
def collapseWs (l : List Nat) : List Nat := collapseAux .outside l

/-- Query normalization from `PagefindClient.search`:
lowercase, trim, strip the fixed punctuation set, collapse whitespace runs,
trim again. -/
def normalizeQuery (term : List Nat) : List Nat :=
  trimWs (collapseWs ((trimWs (term.map toLowerNat)).filter (fun c => !isPunct c)))

/-- Exact-phrase detection `/^\s*".+"\s*$/.test(term)`: after optional leading
whitespace comes a double quote, then at least one non-newline character, then a
closing double quote followed only by whitespace.  (`.` in a JS regex without the
`s` flag does not match line terminators.) -/
def isRegexDot (n : Nat) : Bool :=
  !(n = 10 || n = 13 || n = 0x2028 || n = 0x2029)

/-- Scans for a closing quote: at each position, succeed if the current char is
`"` with at least one inner char consumed and only whitespace remaining; stop if
a line terminator would have to be part of `.+`. -/
def existsCloseQuote : Bool → List Nat → Bool
  | _, [] => false
  | seen, c :: cs =>
    (c = 34 && seen && cs.all isJsWs) ||
    (if isRegexDot c then existsCloseQuote true cs else false)

def exactSearchTest (term : List Nat) : Bool :=
  match trimLeft term with
  | [] => false
  | c :: cs => c = 34 && existsCloseQuote false cs

/-! ## Properties of the normalizer -/

/-- No two adjacent whitespace code points. -/
def noWsPair (a b : Nat) : Prop := ¬(isJsWs a = true ∧ isJsWs b = true)

theorem toLowerNat_idem (n : Nat) : toLowerNat (toLowerNat n) = toLowerNat n := by
  by_cases h : 65 ≤ n ∧ n ≤ 90
  · simp only [toLowerNat, if_pos h]
    rw [if_neg (by omega)]
  · simp only [toLowerNat, if_neg h]

theorem chain_collapseAux (l : List Nat) : ∀ s, List.Chain' noWsPair (collapseAux s l) := by
  induction l with
  | nil =>
    intro s
    cases s <;> simp [collapseAux]
  | cons c cs ih =>
    intro s
    cases s with
    | outside =>
      by_cases hc : isJsWs c
      · simp only [collapseAux, hc, ↓reduceIte]
        exact ih (.one c)
      · simp only [collapseAux, hc, if_neg, Bool.false_eq_true, ↓reduceIte]
        rw [List.chain'_cons']
        exact ⟨fun b _ => fun hab => by simp [hc] at hab, ih .outside⟩
    | one w =>
      by_cases hc : isJsWs c
      · simp only [collapseAux, hc, ↓reduceIte]
        exact ih .many
      · simp only [collapseAux, hc, Bool.false_eq_true, ↓reduceIte]
        rw [List.chain'_cons']
        refine ⟨?_, ?_⟩
        · intro b hb
          simp only [List.head?_cons, Option.mem_def, Option.some.injEq] at hb
          subst hb
          intro hab
          exact hc hab.2
        rw [List.chain'_cons']
        exact ⟨fun b _ => fun hab => by simp [hc] at hab, ih .outside⟩
    | many =>
      by_cases hc : isJsWs c
      · simp only [collapseAux, hc, ↓reduceIte]
        exact ih .many
      · simp only [collapseAux, hc, Bool.false_eq_true, ↓reduceIte]
        rw [List.chain'_cons']
        refine ⟨?_, ?_⟩
        · intro b hb
          simp only [List.head?_cons, Option.mem_def, Option.some.injEq] at hb
          subst hb
          intro hab
          exact hc hab.2
        rw [List.chain'_cons']
        exact ⟨fun b _ => fun hab => by simp [hc] at hab, ih .outside⟩

theorem chain_collapseWs (l : List Nat) : List.Chain' noWsPair (collapseWs l) :=
  chain_collapseAux l .outside

theorem collapseAux_one (w : Nat) (l : List Nat)
    (h : ∀ c ∈ l.head?, isJsWs c = false) :
    collapseAux (.one w) l = w :: collapseAux .outside l := by
  cases l with
  | nil => rfl
  | cons c cs =>
    have hc : isJsWs c = false := h c (by simp)
    simp [collapseAux, hc]

theorem collapseWs_eq_self {l : List Nat} (h : List.Chain' noWsPair l) :
    collapseWs l = l := by
  induction l with
  | nil => rfl
  | cons c cs ih =>
    rw [List.chain'_cons'] at h
    by_cases hc : isJsWs c
    · have hhead : ∀ b ∈ cs.head?, isJsWs b = false := by
        intro b hb
        have := h.1 b hb
        by_contra hb'
        exact this ⟨hc, by simpa using hb'⟩
      simp only [collapseWs, collapseAux, hc, ↓reduceIte]
      rw [collapseAux_one c cs hhead]
      exact congrArg (c :: ·) (ih h.2)
    · simp only [collapseWs, collapseAux, hc, Bool.false_eq_true, ↓reduceIte]
      exact congrArg (c :: ·) (ih h.2)

theorem mem_collapseAux {c : Nat} :
    ∀ (l : List Nat) (s : WsRun), c ∈ collapseAux s l →
      c ∈ l ∨ c = 32 ∨ ∃ w, s = WsRun.one w ∧ c = w := by
  intro l
  induction l with
  | nil =>
    intro s hc
    cases s <;> simp [collapseAux] at hc <;> simp [hc]
  | cons a cs ih =>
    intro s hc
    cases s with
    | outside =>
      by_cases ha : isJsWs a
      · simp only [collapseAux, ha, ↓reduceIte] at hc
        rcases ih (.one a) hc with h | h | ⟨w, hw, hcw⟩
        · exact Or.inl (List.mem_cons_of_mem _ h)
        · exact Or.inr (Or.inl h)
        · cases hw; exact Or.inl (by simp [hcw])
      · simp only [collapseAux, ha, Bool.false_eq_true, ↓reduceIte, List.mem_cons] at hc
        rcases hc with h | h
        · exact Or.inl (by simp [h])
        · rcases ih .outside h with h' | h' | ⟨w, hw, _⟩
          · exact Or.inl (List.mem_cons_of_mem _ h')
          · exact Or.inr (Or.inl h')
          · cases hw
    | one u =>
      by_cases ha : isJsWs a
      · simp only [collapseAux, ha, ↓reduceIte] at hc
        rcases ih .many hc with h | h | ⟨w, hw, _⟩
        · exact Or.inl (List.mem_cons_of_mem _ h)
        · exact Or.inr (Or.inl h)
        · cases hw
      · simp only [collapseAux, ha, Bool.false_eq_true, ↓reduceIte, List.mem_cons] at hc
        rcases hc with h | h | h
        · exact Or.inr (Or.inr ⟨u, rfl, h⟩)
        · exact Or.inl (by simp [h])
        · rcases ih .outside h with h' | h' | ⟨w, hw, _⟩
          · exact Or.inl (List.mem_cons_of_mem _ h')
          · exact Or.inr (Or.inl h')
          · cases hw
    | many =>
      by_cases ha : isJsWs a
      · simp only [collapseAux, ha, ↓reduceIte] at hc
        rcases ih .many hc with h | h | ⟨w, hw, _⟩
        · exact Or.inl (List.mem_cons_of_mem _ h)
        · exact Or.inr (Or.inl h)
        · cases hw
      · simp only [collapseAux, ha, Bool.false_eq_true, ↓reduceIte, List.mem_cons] at hc
        rcases hc with h | h | h
        · exact Or.inr (Or.inl h)
        · exact Or.inl (by simp [h])
        · rcases ih .outside h with h' | h' | ⟨w, hw, _⟩
          · exact Or.inl (List.mem_cons_of_mem _ h')
          · exact Or.inr (Or.inl h')
          · cases hw

theorem mem_collapseWs {c : Nat} {l : List Nat} (h : c ∈ collapseWs l) :
    c ∈ l ∨ c = 32 := by
  rcases mem_collapseAux l .outside h with h' | h' | ⟨w, hw, _⟩
  · exact Or.inl h'
  · exact Or.inr h'
  · cases hw

theorem trimLeft_isSuffixOf (l : List Nat) : trimLeft l <:+ l :=
  List.dropWhile_suffix _

theorem trimRight_isPrefixOf (l : List Nat) : trimRight l <+: l := by
  rw [← List.reverse_suffix]
  simpa [trimRight] using List.dropWhile_suffix (l := l.reverse) isJsWs

theorem chain_trimWs {R : Nat → Nat → Prop} {l : List Nat}
    (h : List.Chain' R l) : List.Chain' R (trimWs l) :=
  List.Chain'.prefix (h.suffix (trimLeft_isSuffixOf l)) (trimRight_isPrefixOf (trimLeft l))

theorem mem_trimWs {c : Nat} {l : List Nat} (h : c ∈ trimWs l) : c ∈ l :=
  ((trimRight_isPrefixOf (trimLeft l)).sublist.trans
    (trimLeft_isSuffixOf l).sublist).mem h

theorem trimRight_trimRight (l : List Nat) : trimRight (trimRight l) = trimRight l := by
  simp [trimRight, List.dropWhile_idempotent]

theorem dropWhile_cons_head {p : Nat → Bool} :
    ∀ (l : List Nat) (b : Nat) (t : List Nat), List.dropWhile p l = b :: t → p b = false := by
  intro l
  induction l with
  | nil => intro b t h; simp at h
  | cons c cs ih =>
    intro b t h
    rw [List.dropWhile_cons] at h
    by_cases hc : p c
    · rw [if_pos hc] at h
      exact ih b t h
    · rw [if_neg hc] at h
      cases h
      simpa using hc

theorem trimLeft_trimRight_trimLeft (l : List Nat) :
    trimLeft (trimRight (trimLeft l)) = trimRight (trimLeft l) := by
  rcases h : trimRight (trimLeft l) with _ | ⟨b, t⟩
  · rfl
  · have hpre := trimRight_isPrefixOf (trimLeft l)
    rw [h] at hpre
    rcases hpre with ⟨tail, htail⟩
    have hb : isJsWs b = false :=
      dropWhile_cons_head l b (t ++ tail) htail.symm
    simp [trimLeft, List.dropWhile_cons, hb]

theorem trimWs_trimWs (l : List Nat) : trimWs (trimWs l) = trimWs l := by
  unfold trimWs
  rw [trimLeft_trimRight_trimLeft, trimRight_trimRight]

theorem mem_normalizeQuery {c : Nat} {t : List Nat} (h : c ∈ normalizeQuery t) :
    toLowerNat c = c ∧ isPunct c = false := by
  unfold normalizeQuery at h
  have h1 := mem_trimWs h
  rcases mem_collapseWs h1 with h2 | h2
  · rw [List.mem_filter] at h2
    have h3 := mem_trimWs h2.1
    rw [List.mem_map] at h3
    obtain ⟨a, _, ha⟩ := h3
    refine ⟨by rw [← ha]; exact toLowerNat_idem a, by simpa using h2.2⟩
  · subst h2
    exact ⟨by decide, by decide⟩

theorem chain_normalizeQuery (t : List Nat) :
    List.Chain' noWsPair (normalizeQuery t) :=
  chain_trimWs (chain_collapseWs _)

theorem trimWs_normalizeQuery (t : List Nat) :
    trimWs (normalizeQuery t) = normalizeQuery t :=
  trimWs_trimWs _

/-- C9: the query-normalization step of `PagefindClient.search` (lowercase,
trim, strip the fixed punctuation set, collapse whitespace runs to a single
space, trim) is idempotent: applying it to its own output returns that output
unchanged, for every query string. -/
theorem normalizeQuery_idem (q : List Nat) :
    normalizeQuery (normalizeQuery q) = normalizeQuery q := by
  have hmap : (normalizeQuery q).map toLowerNat = normalizeQuery q := by
    rw [List.map_congr_left (fun c hc => (mem_normalizeQuery hc).1)]
    exact List.map_id _
  have hfilter : (normalizeQuery q).filter (fun c => !isPunct c) = normalizeQuery q := by
    rw [List.filter_eq_self]
    intro a ha
    simp [(mem_normalizeQuery ha).2]
  have hcollapse : collapseWs (normalizeQuery q) = normalizeQuery q :=
    collapseWs_eq_self (chain_normalizeQuery q)
  show trimWs (collapseWs ((trimWs ((normalizeQuery q).map toLowerNat)).filter
      (fun c => !isPunct c))) = normalizeQuery q
  rw [hmap, trimWs_normalizeQuery, hfilter, hcollapse, trimWs_normalizeQuery]

/-- C8: normalization of the input `  "Hello, World!"  ` detects an exact
phrase (the entire trimmed query is wrapped in a single pair of double
quotes, per the regex test in `PagefindClient.search`) and produces the
normalized text `hello world`. -/
theorem normalize_hello_world_example :
    exactSearchTest (strCodes "  \"Hello, World!\"  ") = true ∧
    normalizeQuery (strCodes "  \"Hello, World!\"  ") = strCodes "hello world" :=
  ⟨by decide, by decide⟩

/-! ## Decompression (`decompress`)

`decoder.decode(data.slice(0, 12)) === SIGNATURE` compares the UTF-8 decoding
of the first 12 bytes with the ASCII string `pagefind_dcd`; since `TextDecoder`
maps every invalid byte sequence to U+FFFD and ASCII decodes to itself, the test
is equivalent to byte equality of `data.take 12` with the signature bytes.
`zlib.gunzipSync` is an external collaborator, modelled as an oracle function
that either inflates or throws (`none`). -/

/-- Runtime errors propagated to the caller. -/
inductive JsErr where
  | typeError : JsErr
  | gunzipError : JsErr
  deriving DecidableEq, Repr

/-- The 12-byte ASCII signature `pagefind_dcd`. -/
def signatureBytes : List Nat := strCodes "pagefind_dcd"

/-- `decompress` from `pagefind-client.ts`: strip the signature if present;
otherwise gunzip and strip the signature from the inflated bytes if present,
tolerating inflated chunks without a signature. -/
def decompress (gunzip : List Nat → Option (List Nat)) (data : List Nat) :
    Except JsErr (List Nat) :=
  if data.take 12 = signatureBytes then .ok (data.drop 12)
  else
    match gunzip data with
    | none => .error .gunzipError
    | some result =>
      if result.take 12 = signatureBytes then .ok (result.drop 12)
      else .ok result

/-- C3: for every byte string whose first 12 bytes are the ASCII signature,
`decompress` returns the input with the first 12 bytes removed, verbatim; no
gzip inflation is attempted (the result is independent of the gunzip oracle,
which is never consulted on this branch). -/
theorem decompress_signature_strips (gunzip : List Nat → Option (List Nat))
    (data : List Nat) (h : data.take 12 = signatureBytes) :
    decompress gunzip data = .ok (data.drop 12) := by
  simp [decompress, h]

theorem decompress_signature_strips_witness :
    (signatureBytes ++ [0, 1, 2]).take 12 = signatureBytes ∧
    decompress (fun _ => none) (signatureBytes ++ [0, 1, 2]) = .ok [0, 1, 2] := by
  refine ⟨by decide, ?_⟩
  rw [decompress_signature_strips (fun _ => none) (signatureBytes ++ [0, 1, 2]) (by decide)]
  rfl

/-! ## The Chunk Store

`loadedChunks` / `loadedFilters` from `PagefindClient`: maps from chunk hash to
the shared in-flight promise.  `loadChunk` / `loadFilterChunkByHash` perform the
synchronous check-then-create (no `await` separates `has`, `set` and the start
of `_loadChunk`, so interleaved async callers observe it atomically), and
`_loadChunk` / `_loadFilterChunk` perform one fetch+decompress followed by one
engine-load call.  Promises are identified by creation order (`nextId`); the
`fetches` and `engineLoads` ledgers record one entry per `_loadChunk` /
`_loadFilterChunk` invocation. -/

/-- The two memoized chunk kinds with engine-side load calls. -/
inductive ChunkKind where
  | index : ChunkKind
  | filter : ChunkKind
  deriving DecidableEq, Repr

/-- State of the two per-kind memo maps plus instrumentation ledgers. -/
structure ChunkState where
  indexMap : List (List Nat × Nat)
  filterMap : List (List Nat × Nat)
  nextId : Nat
  fetches : List (ChunkKind × List Nat)
  engineLoads : List (ChunkKind × List Nat)
  deriving DecidableEq, Repr

def ChunkState.initial : ChunkState := ⟨[], [], 0, [], []⟩

def ChunkState.mapOf (st : ChunkState) : ChunkKind → List (List Nat × Nat)
  | .index => st.indexMap
  | .filter => st.filterMap

def ChunkState.setMap (st : ChunkState) : ChunkKind → List (List Nat × Nat) → ChunkState
  | .index, m => { st with indexMap := m }
  | .filter, m => { st with filterMap := m }

/-- `Map.get` / JS object property read on a string-keyed map, modelled as
first-match association lookup (keys are unique by construction). -/
def alookup {β : Type} (h : List Nat) : List (List Nat × β) → Option β
  | [] => none
  | (k, v) :: rest => if k = h then some v else alookup h rest

/-- Start `_loadChunk`: store a fresh promise under the hash and record one
fetch and one engine-load in the ledgers. -/
def ChunkState.register (st : ChunkState) (k : ChunkKind) (h : List Nat) : ChunkState :=
  { st.setMap k ((st.mapOf k) ++ [(h, st.nextId)]) with
      nextId := st.nextId + 1
      fetches := st.fetches ++ [(k, h)]
      engineLoads := st.engineLoads ++ [(k, h)] }

/-- `loadChunk` (kind = index) / `loadFilterChunkByHash` (kind = filter):
if the hash is not in the per-kind map, start `_loadChunk` (recorded as one
fetch and one engine load) and store its promise; return the stored promise. -/
def loadChunkStep (st : ChunkState) (k : ChunkKind) (h : List Nat) : ChunkState × Nat :=
  match alookup h (st.mapOf k) with
  | some pid => (st, pid)
  | none => (st.register k h, st.nextId)

theorem register_mapOf (st : ChunkState) (k : ChunkKind) (h : List Nat) (k' : ChunkKind) :
    (st.register k h).mapOf k'
      = if k = k' then st.mapOf k ++ [(h, st.nextId)] else st.mapOf k' := by
  cases k <;> cases k' <;>
    simp [ChunkState.register, ChunkState.setMap, ChunkState.mapOf]

theorem register_fetches (st : ChunkState) (k : ChunkKind) (h : List Nat) :
    (st.register k h).fetches = st.fetches ++ [(k, h)] := by
  cases k <;> rfl

theorem register_engineLoads (st : ChunkState) (k : ChunkKind) (h : List Nat) :
    (st.register k h).engineLoads = st.engineLoads ++ [(k, h)] := by
  cases k <;> rfl

/-- Run a sequence of load requests (any interleaving of the synchronous
check-then-create sections of concurrent callers), collecting the promise
each call awaits. -/
def runLoads (st : ChunkState) : List (ChunkKind × List Nat) → ChunkState × List Nat
  | [] => (st, [])
  | (k, h) :: rest =>
    let s := loadChunkStep st k h
    let r := runLoads s.1 rest
    (r.1, s.2 :: r.2)

theorem alookup_append_none {β : Type} {h : List Nat} {m : List (List Nat × β)}
    (p : List Nat × β) (hm : alookup h m = none) :
    alookup h (m ++ [p]) = if p.1 = h then some p.2 else none := by
  induction m with
  | nil => cases p; simp [alookup]
  | cons q rest ih =>
    rcases q with ⟨qk, qv⟩
    by_cases hq : qk = h
    · simp [alookup, hq] at hm
    · rw [List.cons_append]
      simp only [alookup, if_neg hq] at hm ⊢
      exact ih hm

theorem alookup_append_some {β : Type} {h : List Nat} {m : List (List Nat × β)} {v : β}
    (p : List Nat × β) (hm : alookup h m = some v) :
    alookup h (m ++ [p]) = some v := by
  induction m with
  | nil => simp [alookup] at hm
  | cons q rest ih =>
    rcases q with ⟨qk, qv⟩
    by_cases hq : qk = h
    · rw [List.cons_append]
      simp only [alookup, if_pos hq] at hm ⊢
      exact hm
    · rw [List.cons_append]
      simp only [alookup, if_neg hq] at hm ⊢
      exact ih hm

theorem mapOf_setMap (st : ChunkState) (k k' : ChunkKind) (m : List (List Nat × Nat)) :
    (st.setMap k m).mapOf k' = if k = k' then m else st.mapOf k' := by
  cases k <;> cases k' <;> simp [ChunkState.setMap, ChunkState.mapOf]

/-- Invariant: the per-kind maps hold exactly the processed keys, and the
fetch / engine-load ledgers hold exactly one entry per processed key. -/
def ChunkInv (st : ChunkState) (processed : List (ChunkKind × List Nat)) : Prop :=
  ∀ k h, ((alookup h (st.mapOf k)).isSome ↔ (k, h) ∈ processed)
    ∧ st.fetches.count (k, h) = (if (k, h) ∈ processed then 1 else 0)
    ∧ st.engineLoads.count (k, h) = (if (k, h) ∈ processed then 1 else 0)

theorem chunkInv_initial : ChunkInv ChunkState.initial [] := by
  intro k h
  cases k <;>
    simp [ChunkState.initial, ChunkState.mapOf, alookup, List.count_nil]

theorem count_singleton_of_ne {α : Type} [BEq α] [LawfulBEq α] {a b : α} (h : a ≠ b) :
    List.count a [b] = 0 := by
  simp [List.count_cons, List.count_nil, beq_iff_eq, Ne.symm h]

theorem count_singleton_self {α : Type} [BEq α] [LawfulBEq α] (a : α) :
    List.count a [a] = 1 := by
  simp [List.count_cons, List.count_nil]

theorem chunkInv_step {st : ChunkState} {processed : List (ChunkKind × List Nat)}
    (hinv : ChunkInv st processed) (k : ChunkKind) (h : List Nat) :
    ChunkInv (loadChunkStep st k h).1 (processed ++ [(k, h)]) := by
  intro k' h'
  obtain ⟨hmem, hfet, heng⟩ := hinv k' h'
  unfold loadChunkStep
  cases hcase : alookup h (st.mapOf k) with
  | some pid =>
    have hkin : (k, h) ∈ processed := (hinv k h).1.mp (by rw [hcase]; rfl)
    have hiff : (k', h') ∈ processed ++ [(k, h)] ↔ (k', h') ∈ processed := by
      simp only [List.mem_append, List.mem_singleton]
      constructor
      · rintro (hp | hp)
        · exact hp
        · rw [hp]; exact hkin
      · exact Or.inl
    simp only [hiff]
    exact ⟨hmem, hfet, heng⟩
  | none =>
    by_cases hk : (k', h') = (k, h)
    · cases hk
      have hknotin : (k, h) ∉ processed := fun hin => by
        have hs := (hinv k h).1.mpr hin
        rw [hcase] at hs
        simp at hs
      have hin' : (k, h) ∈ processed ++ [(k, h)] := by simp
      refine ⟨?_, ?_, ?_⟩
      · rw [register_mapOf, if_pos rfl, alookup_append_none _ hcase]
        simp
      · rw [register_fetches, List.count_append, hfet, if_neg hknotin,
          count_singleton_self, if_pos hin']
      · rw [register_engineLoads, List.count_append, heng, if_neg hknotin,
          count_singleton_self, if_pos hin']
    · have hiff : (k', h') ∈ processed ++ [(k, h)] ↔ (k', h') ∈ processed := by
        simp only [List.mem_append, List.mem_singleton]
        constructor
        · rintro (hp | hp)
          · exact hp
          · exact absurd hp hk
        · exact Or.inl
      refine ⟨?_, ?_, ?_⟩
      · simp only [hiff, register_mapOf]
        by_cases hkk : k = k'
        · cases hkk
          have hhh : ¬((h, st.nextId).1 = h') := fun he => hk (by
            simp only at he
            rw [he])
          rw [if_pos rfl]
          cases hl : alookup h' (st.mapOf k) with
          | some v =>
            rw [alookup_append_some _ hl]
            rw [hl] at hmem
            exact hmem
          | none =>
            rw [alookup_append_none _ hl, if_neg hhh]
            rw [hl] at hmem
            exact hmem
        · rw [if_neg hkk]
          exact hmem
      · simp only [hiff, register_fetches, List.count_append, hfet,
          count_singleton_of_ne hk, Nat.add_zero]
      · simp only [hiff, register_engineLoads, List.count_append, heng,
          count_singleton_of_ne hk, Nat.add_zero]

theorem runLoads_inv :
    ∀ (reqs : List (ChunkKind × List Nat)) (st : ChunkState)
      (processed : List (ChunkKind × List Nat)),
      ChunkInv st processed → ChunkInv (runLoads st reqs).1 (processed ++ reqs) := by
  intro reqs
  induction reqs with
  | nil => intro st processed hinv; simpa [runLoads] using hinv
  | cons r rest ih =>
    intro st processed hinv
    rcases r with ⟨k, h⟩
    have hstep := chunkInv_step hinv k h
    have := ih (loadChunkStep st k h).1 (processed ++ [(k, h)]) hstep
    simpa [runLoads, List.append_assoc] using this

theorem loadChunkStep_lookup (st : ChunkState) (k : ChunkKind) (h : List Nat) :
    alookup h (((loadChunkStep st k h).1).mapOf k) = some (loadChunkStep st k h).2 := by
  unfold loadChunkStep
  cases hcase : alookup h (st.mapOf k) with
  | some pid => simpa using hcase
  | none =>
    rw [register_mapOf, if_pos rfl, alookup_append_none _ hcase]
    simp

theorem loadChunkStep_mono {st : ChunkState} {k' : ChunkKind} {h' : List Nat} {pid : Nat}
    (hl : alookup h' (st.mapOf k') = some pid) (k : ChunkKind) (h : List Nat) :
    alookup h' (((loadChunkStep st k h).1).mapOf k') = some pid := by
  unfold loadChunkStep
  cases hcase : alookup h (st.mapOf k) with
  | some pid' => simpa using hl
  | none =>
    simp only [register_mapOf]
    by_cases hkk : k = k'
    · subst hkk
      rw [if_pos rfl]
      exact alookup_append_some _ hl
    · rw [if_neg hkk]
      exact hl

theorem runLoads_mono :
    ∀ (reqs : List (ChunkKind × List Nat)) {st : ChunkState} {k' : ChunkKind}
      {h' : List Nat} {pid : Nat},
      alookup h' (st.mapOf k') = some pid →
      alookup h' (((runLoads st reqs).1).mapOf k') = some pid := by
  intro reqs
  induction reqs with
  | nil => intro st k' h' pid hl; simpa [runLoads] using hl
  | cons r rest ih =>
    intro st k' h' pid hl
    rcases r with ⟨k, h⟩
    simpa [runLoads] using ih (loadChunkStep_mono hl k h)

theorem runLoads_zip_lookup :
    ∀ (reqs : List (ChunkKind × List Nat)) (st : ChunkState)
      (p : (ChunkKind × List Nat) × Nat),
      p ∈ reqs.zip (runLoads st reqs).2 →
      alookup p.1.2 (((runLoads st reqs).1).mapOf p.1.1) = some p.2 := by
  intro reqs
  induction reqs with
  | nil => intro st p hp; simp [runLoads] at hp
  | cons r rest ih =>
    intro st p hp
    rcases r with ⟨k, h⟩
    simp only [runLoads, List.zip_cons_cons, List.mem_cons] at hp
    rcases hp with hp | hp
    · subst hp
      simp only [runLoads]
      exact runLoads_mono rest (loadChunkStep_lookup st k h)
    · simpa [runLoads] using ih (loadChunkStep st k h).1 p hp

/-- C1: running any sequence of `loadChunk` / `loadFilterChunkByHash` requests
from a fresh client performs exactly one fetch and exactly one engine-load per
distinct (kind, hash) that occurs in the sequence (and none for absent pairs),
and every request with the same (kind, hash) receives the same stored promise. -/
theorem chunkStore_loads_once (reqs : List (ChunkKind × List Nat))
    (k : ChunkKind) (h : List Nat) :
    ((runLoads ChunkState.initial reqs).1.fetches.count (k, h)
        = if (k, h) ∈ reqs then 1 else 0)
  ∧ ((runLoads ChunkState.initial reqs).1.engineLoads.count (k, h)
        = if (k, h) ∈ reqs then 1 else 0)
  ∧ (∀ p ∈ reqs.zip (runLoads ChunkState.initial reqs).2,
      ∀ q ∈ reqs.zip (runLoads ChunkState.initial reqs).2,
        p.1 = q.1 → p.2 = q.2) := by
  have hinv := runLoads_inv reqs ChunkState.initial [] chunkInv_initial
  rw [List.nil_append] at hinv
  obtain ⟨_, hfet, heng⟩ := hinv k h
  refine ⟨hfet, heng, ?_⟩
  intro p hp q hq hpq
  have e1 := runLoads_zip_lookup reqs ChunkState.initial p hp
  have e2 := runLoads_zip_lookup reqs ChunkState.initial q hq
  rw [hpq] at e1
  rw [e1] at e2
  exact Option.some.inj e2

theorem chunkStore_loads_once_witness :
    ((runLoads ChunkState.initial
        [(ChunkKind.index, strCodes "aa"), (ChunkKind.index, strCodes "aa"),
         (ChunkKind.filter, strCodes "aa")]).1.fetches.count
        (ChunkKind.index, strCodes "aa") = 1)
  ∧ (((ChunkKind.index, strCodes "aa"), (0 : Nat)).2
      = ((ChunkKind.index, strCodes "aa"), (0 : Nat)).2) := by
  refine ⟨?_, ?_⟩
  · exact (chunkStore_loads_once
      [(ChunkKind.index, strCodes "aa"), (ChunkKind.index, strCodes "aa"),
       (ChunkKind.filter, strCodes "aa")] ChunkKind.index (strCodes "aa")).1.trans
      (by decide)
  · exact (chunkStore_loads_once
      [(ChunkKind.index, strCodes "aa"), (ChunkKind.index, strCodes "aa"),
       (ChunkKind.filter, strCodes "aa")] ChunkKind.index (strCodes "aa")).2.2
      ((ChunkKind.index, strCodes "aa"), 0) (by decide)
      ((ChunkKind.index, strCodes "aa"), 0) (by decide) rfl

/-! ## Filter-string parsing (`parseFilters`)

`block.split(/:(.*)$/)` splits a filter block at the leftmost colon whose
remainder contains no line terminator (`.` does not match line terminators and
`$` anchors at the very end without the `m` flag); if no such colon exists the
block is not split and the value part is `undefined`.  A value entry is matched
against `/^(.*):(\d+)$/`: greedy `(.*)` makes the split colon the one preceding
the maximal all-digits suffix; the value part may contain colons but no line
terminator.  `parseInt` on a digit string is exact decimal. -/

def filterDelim : List Nat := strCodes "__PF_FILTER_DELIM__"
def valueDelim : List Nat := strCodes "__PF_VALUE_DELIM__"
def unfilteredDelim : List Nat := strCodes "__PF_UNFILTERED_DELIM__"

/-- `String.prototype.split` on a literal separator: leftmost, non-overlapping
matches.  Fuelled for structural recursion; one char is consumed per step, so
fuel = input length suffices. -/
def splitSepGo (sep : List Nat) : Nat → List Nat → List Nat → List (List Nat)
  | _, acc, [] => [acc.reverse]
  | 0, acc, rest => [acc.reverse ++ rest]
  | fuel + 1, acc, c :: cs =>
    if sep.isPrefixOf (c :: cs) then
      acc.reverse :: splitSepGo sep fuel [] (List.drop sep.length (c :: cs))
    else
      splitSepGo sep fuel (c :: acc) cs

def splitOnSep (sep l : List Nat) : List (List Nat) := splitSepGo sep l.length [] l

def isDigit (n : Nat) : Bool := 48 ≤ n && n ≤ 57

/-- `parseInt` on an all-digits string. -/
def natOfDigits (ds : List Nat) : Nat := ds.foldl (fun a d => a * 10 + (d - 48)) 0

/-- `valueBlock.match(/^(.*):(\d+)$/)`: strip the maximal nonempty digit
suffix, require a colon right before it, and require the remaining value text
(which may itself contain colons) to be free of line terminators. -/
def matchValueCount (s : List Nat) : Option (List Nat × Nat) :=
  let r := s.reverse
  let ds := r.takeWhile isDigit
  let rest := r.dropWhile isDigit
  match ds, rest with
  | [], _ => none
  | _, [] => none
  | _, c :: rest' =>
    if c = 58 then
      let value := rest'.reverse
      if value.all isRegexDot then some (value, natOfDigits ds.reverse) else none
    else none

/-- JS object property write: update the (unique) existing entry in place,
else append; insertion order is preserved. -/
def assocSet {β : Type} : List (List Nat × β) → List Nat → β → List (List Nat × β)
  | [], key, v => [(key, v)]
  | (k, w) :: rest, key, v =>
    if k = key then (k, v) :: rest else (k, w) :: assocSet rest key v

/-- Body of the value loop: `if (valueBlock) { const extract = ...; if (extract)
{ output[filter][value] = parseInt(count) ?? 0 } }`.  (`parseInt` of a digit
string is never `NaN`, so the `?? 0` is inert.) -/
def parseValueStep (acc : List (List Nat × Nat)) (vb : List Nat) :
    List (List Nat × Nat) :=
  if vb = [] then acc
  else
    match matchValueCount vb with
    | some p => assocSet acc p.1 p.2
    | none => acc

def parseValueBlocks (blocks : List (List Nat)) : List (List Nat × Nat) :=
  blocks.foldl parseValueStep []

def parseFilterValues (values : List Nat) : List (List Nat × Nat) :=
  parseValueBlocks (splitOnSep valueDelim values)

/-- `block.split(/:(.*)$/)`: leftmost colon whose remainder is free of line
terminators; `none` when the regex does not match (`values` stays `undefined`). -/
def splitBlockNameValues (block : List Nat) : List Nat × Option (List Nat) :=
  match (List.range block.length).find?
      (fun i => block.getD i 0 = 58 && (block.drop (i + 1)).all isRegexDot) with
  | none => (block, none)
  | some i => (block.take i, some (block.drop (i + 1)))

/-- Body of the filter loop: `output[filter] = {}`, then fill from the value
list when `values` is truthy (defined and nonempty). -/
def parseFilterStep (out : List (List Nat × List (List Nat × Nat)))
    (block : List Nat) : List (List Nat × List (List Nat × Nat)) :=
  let nv := splitBlockNameValues block
  match nv.2 with
  | some vs =>
    if vs ≠ [] then assocSet out nv.1 (parseFilterValues vs)
    else assocSet out nv.1 []
  | none => assocSet out nv.1 []

/-- `parseFilters` from `pagefind-client.ts`. -/
def parseFilters (s : List Nat) : List (List Nat × List (List Nat × Nat)) :=
  if s = [] then []
  else (splitOnSep filterDelim s).foldl parseFilterStep []

theorem alookup_assocSet_self {β : Type} (m : List (List Nat × β)) (key : List Nat) (v : β) :
    alookup key (assocSet m key v) = some v := by
  induction m with
  | nil => simp [assocSet, alookup]
  | cons q rest ih =>
    rcases q with ⟨qk, qv⟩
    by_cases hqk : qk = key
    · simp [assocSet, alookup, hqk]
    · simp only [assocSet, if_neg hqk, alookup]
      exact ih

theorem alookup_assocSet_ne {β : Type} (m : List (List Nat × β)) (key k' : List Nat)
    (v : β) (hne : k' ≠ key) :
    alookup k' (assocSet m key v) = alookup k' m := by
  induction m with
  | nil => simp [assocSet, alookup, Ne.symm hne]
  | cons q rest ih =>
    rcases q with ⟨qk, qv⟩
    by_cases hqk : qk = key
    · subst hqk
      simp only [assocSet, if_pos rfl, alookup]
      rw [if_neg (fun hx : qk = k' => hne hx.symm), if_neg (fun hx : qk = k' => hne hx.symm)]
    · simp only [assocSet, if_neg hqk, alookup]
      by_cases hq' : qk = k'
      · rw [if_pos hq', if_pos hq']
      · rw [if_neg hq', if_neg hq']
        exact ih

/-- The count recorded for value `v` by the value loop: the last well-formed
entry whose extracted value text is `v`. -/
def lastValueCount (v : List Nat) (blocks : List (List Nat)) : Option Nat :=
  blocks.reverse.findSome? (fun vb =>
    match matchValueCount vb with
    | some p => if p.1 = v then some p.2 else none
    | none => none)

theorem parseValueBlocks_foldl (v : List Nat) :
    ∀ (blocks : List (List Nat)) (acc : List (List Nat × Nat)),
      alookup v (blocks.foldl parseValueStep acc) =
        (lastValueCount v blocks).or (alookup v acc) := by
  intro blocks
  induction blocks with
  | nil =>
    intro acc
    simp [lastValueCount]
  | cons vb rest ih =>
    intro acc
    rw [List.foldl_cons, ih (parseValueStep acc vb)]
    unfold lastValueCount
    rw [List.reverse_cons, List.findSome?_append]
    cases hA : List.findSome? (fun vb =>
        match matchValueCount vb with
        | some p => if p.1 = v then some p.2 else none
        | none => none) rest.reverse with
    | some c => simp
    | none =>
      simp only [Option.none_or]
      rw [List.findSome?_cons]
      cases hm : matchValueCount vb with
      | some p =>
        have hvb : vb ≠ [] := by
          intro h0
          rw [h0] at hm
          rw [show matchValueCount [] = none from rfl] at hm
          exact Option.noConfusion hm
        simp only [parseValueStep, if_neg hvb, hm]
        by_cases hpv : p.1 = v
        · rw [if_pos hpv]
          subst hpv
          simp [alookup_assocSet_self]
        · rw [if_neg hpv]
          simp only [List.findSome?_nil, Option.none_or]
          exact alookup_assocSet_ne acc p.1 v p.2 (fun hx => hpv hx.symm)
      | none =>
        simp only [parseValueStep, hm]
        by_cases hvb : vb = [] <;> simp [hvb]

/-- One iteration of the filter loop writes `output[filter]` this map: the
value-loop result when `values` is truthy (defined and nonempty), else the
empty map left by `output[filter] = {}`. -/
def filterMapOfBlock (block : List Nat) : List (List Nat × Nat) :=
  match (splitBlockNameValues block).2 with
  | some vs => if vs ≠ [] then parseFilterValues vs else []
  | none => []

/-- The block that governs filter `f` in the output: the LAST block of the
split whose name part is `f`, since every iteration assigns `output[filter]`
unconditionally and so later blocks overwrite earlier ones. -/
def lastBlockNamed (f : List Nat) (blocks : List (List Nat)) : Option (List Nat) :=
  blocks.reverse.find? (fun b => (splitBlockNameValues b).1 == f)

/-- The value map the filter loop leaves under key `f`. -/
def lastFilterMap (f : List Nat) (blocks : List (List Nat)) :
    Option (List (List Nat × Nat)) :=
  blocks.reverse.findSome? (fun b =>
    if (splitBlockNameValues b).1 = f then some (filterMapOfBlock b) else none)

theorem parseFilterStep_eq (out : List (List Nat × List (List Nat × Nat)))
    (block : List Nat) :
    parseFilterStep out block
      = assocSet out (splitBlockNameValues block).1 (filterMapOfBlock block) := by
  unfold parseFilterStep filterMapOfBlock
  cases h : (splitBlockNameValues block).2 with
  | none => simp only [h]
  | some vs =>
    simp only [h]
    by_cases hvs : vs ≠ [] <;> simp [hvs]

theorem parseFilters_fold (f : List Nat) :
    ∀ (blocks : List (List Nat)) (acc : List (List Nat × List (List Nat × Nat))),
      alookup f (blocks.foldl parseFilterStep acc)
        = (lastFilterMap f blocks).or (alookup f acc) := by
  intro blocks
  induction blocks with
  | nil =>
    intro acc
    simp [lastFilterMap]
  | cons b rest ih =>
    intro acc
    rw [List.foldl_cons, ih (parseFilterStep acc b)]
    unfold lastFilterMap
    rw [List.reverse_cons, List.findSome?_append]
    cases hA : List.findSome? (fun b =>
        if (splitBlockNameValues b).1 = f then some (filterMapOfBlock b) else none)
        rest.reverse with
    | some mm => simp
    | none =>
      simp only [Option.none_or]
      rw [List.findSome?_cons]
      by_cases hb : (splitBlockNameValues b).1 = f
      · rw [if_pos hb, parseFilterStep_eq, hb]
        simp [alookup_assocSet_self]
      · rw [if_neg hb, parseFilterStep_eq]
        simp only [List.findSome?_nil, Option.none_or]
        exact alookup_assocSet_ne acc _ f _ (fun hx => hb hx.symm)

theorem lastFilterMap_of_find? (f : List Nat) :
    ∀ (l : List (List Nat)) (block : List Nat),
      l.find? (fun b => (splitBlockNameValues b).1 == f) = some block →
      l.findSome? (fun b =>
          if (splitBlockNameValues b).1 = f then some (filterMapOfBlock b) else none)
        = some (filterMapOfBlock block) := by
  intro l
  induction l with
  | nil => intro block h; exact Option.noConfusion h
  | cons b bs ih =>
    intro block h
    by_cases hb : (splitBlockNameValues b).1 = f
    · have hbeq : ((splitBlockNameValues b).1 == f) = true := beq_iff_eq.mpr hb
      simp only [List.find?_cons, hbeq] at h
      cases h
      simp [List.findSome?_cons, hb]
    · have hbeq : ((splitBlockNameValues b).1 == f) = false := by
        simp [hb]
      simp only [List.find?_cons, hbeq] at h
      rw [List.findSome?_cons]
      simp only [if_neg hb]
      exact ih block h

/-- C5 as amended, at the level of full `parseFilters`: for every filter
string `s`, filter `f` with map `m` in the output, whose governing block
(the last one named `f`) carries the nonempty value text `vs`, and for every
value `v`: the recorded count is exactly the parsed count of the last
well-formed `<value>:<integer count>` entry for `v` (`lastValueCount`); so a
value all of whose entries lack a well-formed trailing `:<integer count>` part
gets NO entry at all (not a count-0 entry), and a value with a well-formed
entry — whose value text may itself contain colons — is recorded with a parsed
count taken from one of its well-formed entries. -/
theorem parseFilters_value_semantics (s f block vs v : List Nat)
    (m : List (List Nat × Nat))
    (hm : alookup f (parseFilters s) = some m)
    (hblock : lastBlockNamed f (splitOnSep filterDelim s) = some block)
    (hsplit : (splitBlockNameValues block).2 = some vs)
    (hne : vs ≠ []) :
    alookup v m = lastValueCount v (splitOnSep valueDelim vs)
    ∧ (alookup v m = none ↔
        ∀ vb ∈ splitOnSep valueDelim vs, ∀ c, matchValueCount vb ≠ some (v, c))
    ∧ (∀ c, alookup v m = some c →
        ∃ vb ∈ splitOnSep valueDelim vs, matchValueCount vb = some (v, c)) := by
  have hs : s ≠ [] := by
    intro h0
    rw [h0, show parseFilters [] = [] from rfl] at hm
    exact Option.noConfusion hm
  have hmap : alookup f (parseFilters s) = lastFilterMap f (splitOnSep filterDelim s) := by
    unfold parseFilters
    rw [if_neg hs, parseFilters_fold f (splitOnSep filterDelim s) [],
      show alookup f ([] : List (List Nat × List (List Nat × Nat))) = none from rfl,
      Option.or_none]
  have hlm : lastFilterMap f (splitOnSep filterDelim s) = some (filterMapOfBlock block) :=
    lastFilterMap_of_find? f (splitOnSep filterDelim s).reverse block hblock
  have hmfb : m = filterMapOfBlock block := by
    rw [hmap, hlm] at hm
    exact (Option.some.inj hm).symm
  have hfvs : filterMapOfBlock block = parseFilterValues vs := by
    unfold filterMapOfBlock
    simp [hsplit, hne]
  rw [hmfb, hfvs]
  have hfold := parseValueBlocks_foldl v (splitOnSep valueDelim vs) []
  rw [show alookup v ([] : List (List Nat × Nat)) = none from rfl, Option.or_none] at hfold
  have hval : alookup v (parseFilterValues vs) =
      lastValueCount v (splitOnSep valueDelim vs) := hfold
  refine ⟨hval, ?_, ?_⟩
  · rw [hval]
    unfold lastValueCount
    rw [List.findSome?_eq_none_iff]
    constructor
    · intro hall vb hvb c hc
      have := hall vb (List.mem_reverse.mpr hvb)
      rw [hc] at this
      simp at this
    · intro hall vb hvb
      cases hmc : matchValueCount vb with
      | some p =>
        have := hall vb (List.mem_reverse.mp hvb) p.2
        rw [hmc] at this
        simp only
        rw [if_neg]
        intro hpv
        exact this (by rw [← hpv])
      | none => simp
  · intro c hc
    rw [hval] at hc
    obtain ⟨vb, hvb, hfb⟩ := List.exists_of_findSome?_eq_some hc
    refine ⟨vb, List.mem_reverse.mp hvb, ?_⟩
    cases hmc : matchValueCount vb with
    | some p =>
      rw [hmc] at hfb
      simp only at hfb
      by_cases hpv : p.1 = v
      · rw [if_pos hpv] at hfb
        rw [← hpv, ← Option.some.inj hfb]
      · rw [if_neg hpv] at hfb
        exact absurd hfb (by simp)
    | none =>
      rw [hmc] at hfb
      simp at hfb

theorem parseFilters_value_semantics_witness :
    alookup (strCodes "a")
        (parseFilters (strCodes "a:x:3__PF_VALUE_DELIM__y__PF_VALUE_DELIM__x:5"))
      = some [(strCodes "x", 5)]
    ∧ alookup (strCodes "x") [(strCodes "x", 5)]
      = lastValueCount (strCodes "x")
          (splitOnSep valueDelim (strCodes "x:3__PF_VALUE_DELIM__y__PF_VALUE_DELIM__x:5")) :=
  ⟨by decide,
   (parseFilters_value_semantics
      (strCodes "a:x:3__PF_VALUE_DELIM__y__PF_VALUE_DELIM__x:5") (strCodes "a")
      (strCodes "a:x:3__PF_VALUE_DELIM__y__PF_VALUE_DELIM__x:5")
      (strCodes "x:3__PF_VALUE_DELIM__y__PF_VALUE_DELIM__x:5") (strCodes "x")
      [(strCodes "x", 5)]
      (by decide) (by decide) (by decide) (by decide)).1⟩

/-- C5 counterexample: the claim as stated is false — `parseFilters "a:x"`
yields filter `a` with an EMPTY value map: the entry `x`, whose trailing
`:<integer count>` part is missing, is not recorded with count 0. -/
theorem parseFilters_malformed_value_dropped :
    parseFilters (strCodes "a:x") = [(strCodes "a", [])] ∧
    parseFilters (strCodes "a:x") ≠ [(strCodes "a", [(strCodes "x", 0)])] := by
  constructor
  · decide
  · decide

/-! ## Excerpt region selection (`calculateExcerptRegion`)

Balanced scores are JS floats.  Floats form a finite set of rationals and the
algorithm uses only `+`, `-`, `=`, `<` on them, so scores are modelled over an
arbitrary decidable linearly ordered additive group `α` (exact rationals `ℚ`
cover every float value; witnesses instantiate `α := ℤ`, every integer-valued
float being exact).  The running-sum update `workingSum += words[boundary] -
words[i]` then telescopes exactly.  Word offsets are JS integers, modelled as
`Int`; a write to a negative index is a plain property assignment that never
affects the array's indexed elements or `length`, so such locations are
skipped; a write past the end extends the array with holes, and every read
coerces a hole to 0 (`|| 0` / `?? 0`), so the sparse array is modelled as a
`List α` padded with 0. -/

/-- One matched-term occurrence (`{weight, balanced_score, location}`). -/
structure WeightedLocation (α : Type) where
  weight : α
  balanced_score : α
  location : Int
  deriving DecidableEq, Repr

section Excerpt

variable {α : Type} [LinearOrderedAddCommGroup α]

/-- `arr[i] = v` on a JS array: in-range write, or extend with holes (0). -/
def listSetExtend (arr : List α) (i : Nat) (v : α) : List α :=
  if i < arr.length then arr.set i v
  else arr ++ List.replicate (i - arr.length) 0 ++ [v]

/-- `words[word.location] = (words[word.location] || 0) + word.balanced_score`
over the whole location list. -/
def accumulateScores (wps : List (WeightedLocation α)) : List α :=
  wps.foldl
    (fun arr w =>
      if w.location < 0 then arr
      else listSetExtend arr w.location.toNat
        ((arr.getD w.location.toNat 0) + w.balanced_score))
    []

end Excerpt

/-- Loop state of `calculateExcerptRegion`. -/
structure RegionState (α : Type) where
  densest : α
  workingSum : α
  densestAt : List Nat
  deriving DecidableEq, Repr

section ExcerptRegion

variable {α : Type} [LinearOrderedAddCommGroup α]

/-- One iteration of the sliding-window loop.  `densestAt[densestAt.length-1]
=== i - 1` is JS number arithmetic: at `i = 0` the right side is `-1`, matched
by requiring `i = j + 1` for the stored `j : Nat`. -/
def regionStep (words : List α) (excerptLength : Nat) (st : RegionState α) (i : Nat) :
    RegionState α :=
  let ws := st.workingSum + words.getD (i + excerptLength) 0 - words.getD i 0
  if st.densest < ws then ⟨ws, ws, [i]⟩
  else
    match st.densestAt.getLast? with
    | some j =>
      if ws = st.densest ∧ i = j + 1 then ⟨st.densest, ws, st.densestAt ++ [i]⟩
      else ⟨st.densest, ws, st.densestAt⟩
    | none => ⟨st.densest, ws, st.densestAt⟩

/-- `calculateExcerptRegion` from `pagefind-client.ts`. -/
def calculateExcerptRegion (wordPositions : List (WeightedLocation α))
    (excerptLength : Nat) : Nat :=
  if wordPositions = [] then 0
  else
    let words := accumulateScores wordPositions
    if words.length ≤ excerptLength then 0
    else
      let densest0 := (words.take excerptLength).sum
      let final := (List.range words.length).foldl (regionStep words excerptLength)
        ⟨densest0, densest0, [0]⟩
      final.densestAt.getD (final.densestAt.length / 2) 0

/-! Reference quantities for the characterization. -/

/-- Sum of the window of width `len` starting at offset `i` (holes and
out-of-range entries read as 0). -/
def windowSum (words : List α) (len i : Nat) : α :=
  ∑ j in Finset.range len, words.getD (i + j) 0

/-- Maximum of `windowSum 0 .. windowSum k`. -/
def stageMax (words : List α) (len : Nat) : Nat → α
  | 0 => windowSum words len 0
  | k + 1 =>
    if stageMax words len k < windowSum words len (k + 1) then windowSum words len (k + 1)
    else stageMax words len k

/-- Number of consecutive windows achieving value `M`, starting at `s`,
looking at most `fuel` windows ahead. -/
def runCount (words : List α) (len : Nat) (M : α) : Nat → Nat → Nat
  | _, 0 => 0
  | s, fuel + 1 =>
    if windowSum words len s = M then runCount words len M (s + 1) fuel + 1 else 0

/-- Index of the first window achieving the overall maximum. -/
def firstMaxIdx (words : List α) (len : Nat) : Nat :=
  ((List.range (words.length + 1)).find?
    (fun i => windowSum words len i = stageMax words len words.length)).getD 0

end ExcerptRegion

/-! The claim's description of the tie-break, used only to exhibit the
divergence: track ALL window start offsets achieving the maximum window sum
and return the middle element of the maximal (longest) contiguous run of
tied maxima. -/

/-- Group a sorted list of offsets into maximal runs of consecutive integers. -/
def insertRun (x : Nat) : List (List Nat) → List (List Nat)
  | [] => [[x]]
  | [] :: rest => [x] :: rest
  | (y :: ys) :: rest =>
    if x + 1 = y then (x :: y :: ys) :: rest else [x] :: (y :: ys) :: rest

def splitConsecRuns (l : List Nat) : List (List Nat) := l.foldr insertRun []

/-- The claim's words, as a definition (NOT translated from the source; used
to compare against `calculateExcerptRegion`): maximum window sum over all
start offsets, all achieving offsets, middle of the longest contiguous run. -/
def claimedDensestRegion {α : Type} [LinearOrderedAddCommGroup α]
    (wordPositions : List (WeightedLocation α)) (excerptLength : Nat) : Nat :=
  if wordPositions = [] then 0
  else
    let words := accumulateScores wordPositions
    if words.length ≤ excerptLength then 0
    else
      let n := words.length
      let maxS := stageMax words excerptLength (n - 1)
      let achieving := (List.range n).filter
        (fun s => windowSum words excerptLength s = maxS)
      let runs := splitConsecRuns achieving
      let best := runs.foldl (fun b r => if b.length < r.length then r else b) []
      best.getD (best.length / 2) 0

section RegionProofs

variable {α : Type} [LinearOrderedAddCommGroup α]

theorem windowSum_succ (words : List α) (len i : Nat) :
    windowSum words len (i + 1)
      = windowSum words len i + words.getD (i + len) 0 - words.getD i 0 := by
  have h1 : windowSum words len i + words.getD (i + len) 0
      = ∑ j in Finset.range (len + 1), words.getD (i + j) 0 := by
    rw [Finset.sum_range_succ]
    rfl
  have h2 : words.getD i 0 + windowSum words len (i + 1)
      = ∑ j in Finset.range (len + 1), words.getD (i + j) 0 := by
    rw [Finset.sum_range_succ']
    unfold windowSum
    have e1 : ∑ j in Finset.range len, words.getD (i + 1 + j) 0
        = ∑ j in Finset.range len, words.getD (i + (j + 1)) 0 :=
      Finset.sum_congr rfl (fun j _ => by
        rw [show i + 1 + j = i + (j + 1) from by omega])
    rw [e1, Nat.add_zero]
    exact add_comm _ _
  have h3 : words.getD i 0 + windowSum words len (i + 1)
      = windowSum words len i + words.getD (i + len) 0 := h2.trans h1.symm
  rw [eq_sub_iff_add_eq, add_comm]
  exact h3

theorem take_sum_eq_windowSum (words : List α) (len : Nat) (h : len ≤ words.length) :
    (words.take len).sum = windowSum words len 0 := by
  induction len with
  | zero => simp [windowSum]
  | succ k ih =>
    have hk : k < words.length := by omega
    rw [List.take_succ]
    rw [List.sum_append]
    rw [ih (by omega)]
    unfold windowSum
    rw [Finset.sum_range_succ]
    congr 1
    have hget : words[k]? = some words[k] := List.getElem?_eq_getElem hk
    rw [hget]
    simp only [Option.toList_some, List.sum_cons, List.sum_nil, add_zero]
    rw [show (0 : Nat) + k = k from by omega]
    rw [List.getD_eq_getElem?_getD, hget]
    rfl

theorem le_stageMax (words : List α) (len : Nat) {i k : Nat} (h : i ≤ k) :
    windowSum words len i ≤ stageMax words len k := by
  induction k with
  | zero =>
    have : i = 0 := by omega
    subst this
    exact le_refl _
  | succ k ih =>
    unfold stageMax
    rcases Nat.lt_succ_iff_lt_or_eq.mp (Nat.lt_succ_of_le h) with hik | hik
    · have hle := ih (by omega)
      split
      · exact hle.trans (le_of_lt (by assumption))
      · exact hle
    · subst hik
      split
      · exact le_refl _
      · exact le_of_not_lt (by assumption)

theorem stageMax_lt_of (words : List α) (len : Nat) {c : α} :
    ∀ k, (∀ i ≤ k, windowSum words len i < c) → stageMax words len k < c := by
  intro k
  induction k with
  | zero => intro h; exact h 0 (le_refl 0)
  | succ k ih =>
    intro h
    unfold stageMax
    split
    · exact h (k + 1) (le_refl _)
    · exact ih (fun i hi => h i (by omega))

theorem find?_range'_min {p : Nat → Bool} :
    ∀ (c s i : Nat), (List.range' s c).find? p = some i →
      p i = true ∧ s ≤ i ∧ i < s + c ∧ ∀ j, s ≤ j → j < i → p j = false := by
  intro c
  induction c with
  | zero => intro s i h; simp at h
  | succ c ih =>
    intro s i h
    rw [List.range'_succ, List.find?_cons] at h
    cases hp : p s with
    | true =>
      rw [hp] at h
      simp only at h
      cases h
      exact ⟨hp, le_refl s, by omega, fun j hj hj' => by omega⟩
    | false =>
      rw [hp] at h
      simp only at h
      obtain ⟨hpi, hsi, hic, hmin⟩ := ih (s + 1) i h
      refine ⟨hpi, by omega, by omega, fun j hj hj' => ?_⟩
      rcases Nat.eq_or_lt_of_le hj with hj0 | hj0
      · rw [← hj0]; exact hp
      · exact hmin j (by omega) hj'

theorem find?_range_min {p : Nat → Bool} {m i : Nat}
    (h : (List.range m).find? p = some i) :
    p i = true ∧ i < m ∧ ∀ j < i, p j = false := by
  rw [List.range_eq_range'] at h
  obtain ⟨hpi, _, hic, hmin⟩ := find?_range'_min m 0 i h
  exact ⟨hpi, by omega, fun j hj => hmin j (by omega) hj⟩

theorem runCount_spec (words : List α) (len : Nat) (M : α) :
    ∀ (fuel s : Nat),
      (∀ j < runCount words len M s fuel, windowSum words len (s + j) = M)
      ∧ runCount words len M s fuel ≤ fuel
      ∧ (runCount words len M s fuel < fuel →
          windowSum words len (s + runCount words len M s fuel) ≠ M) := by
  intro fuel
  induction fuel with
  | zero =>
    intro s
    refine ⟨fun j hj => ?_, ?_, fun h => ?_⟩
    · rw [show runCount words len M s 0 = 0 from rfl] at hj
      omega
    · rw [show runCount words len M s 0 = 0 from rfl]
    · rw [show runCount words len M s 0 = 0 from rfl] at h
      omega
  | succ fuel ih =>
    intro s
    unfold runCount
    by_cases hs : windowSum words len s = M
    · rw [if_pos hs]
      obtain ⟨ih1, ih2, ih3⟩ := ih (s + 1)
      refine ⟨?_, by omega, ?_⟩
      · intro j hj
        cases j with
        | zero => simpa using hs
        | succ j' =>
          rw [show s + (j' + 1) = s + 1 + j' from by omega]
          exact ih1 j' (by omega)
      · intro hlt
        rw [show s + (runCount words len M (s + 1) fuel + 1)
            = s + 1 + runCount words len M (s + 1) fuel from by omega]
        exact ih3 (by omega)
    · rw [if_neg hs]
      exact ⟨fun j hj => by omega, by omega, fun _ => by simpa using hs⟩

theorem runCount_pos (words : List α) (len : Nat) (M : α) {s fuel : Nat}
    (hfuel : 1 ≤ fuel) (hs : windowSum words len s = M) :
    1 ≤ runCount words len M s fuel := by
  cases fuel with
  | zero => omega
  | succ fuel =>
    unfold runCount
    rw [if_pos hs]
    omega

end RegionProofs

section RegionProofs2

variable {α : Type} [LinearOrderedAddCommGroup α]

theorem regionStep_eval (words : List α) (len : Nat) (d w : α) (A : List Nat) (i : Nat) :
    regionStep words len ⟨d, w, A⟩ i =
      if d < w + words.getD (i + len) 0 - words.getD i 0 then
        ⟨w + words.getD (i + len) 0 - words.getD i 0,
          w + words.getD (i + len) 0 - words.getD i 0, [i]⟩
      else
        match A.getLast? with
        | some j =>
          if w + words.getD (i + len) 0 - words.getD i 0 = d ∧ i = j + 1 then
            ⟨d, w + words.getD (i + len) 0 - words.getD i 0, A ++ [i]⟩
          else ⟨d, w + words.getD (i + len) 0 - words.getD i 0, A⟩
        | none => ⟨d, w + words.getD (i + len) 0 - words.getD i 0, A⟩ := rfl

theorem regionStep_workingSum (words : List α) (len : Nat) (st : RegionState α) (i : Nat) :
    (regionStep words len st i).workingSum
      = st.workingSum + words.getD (i + len) 0 - words.getD i 0 := by
  rcases st with ⟨d, w, A⟩
  show (regionStep words len ⟨d, w, A⟩ i).workingSum
    = w + words.getD (i + len) 0 - words.getD i 0
  rw [regionStep_eval]
  split
  · rfl
  · split
    · split
      · rfl
      · rfl
    · rfl

theorem regionStep_densest (words : List α) (len : Nat) (st : RegionState α) (i : Nat) :
    (regionStep words len st i).densest
      = if st.densest < st.workingSum + words.getD (i + len) 0 - words.getD i 0
        then st.workingSum + words.getD (i + len) 0 - words.getD i 0
        else st.densest := by
  rcases st with ⟨d, w, A⟩
  show (regionStep words len ⟨d, w, A⟩ i).densest
    = if d < w + words.getD (i + len) 0 - words.getD i 0
      then w + words.getD (i + len) 0 - words.getD i 0 else d
  rw [regionStep_eval]
  by_cases hlt : d < w + words.getD (i + len) 0 - words.getD i 0
  · rw [if_pos hlt, if_pos hlt]
  · rw [if_neg hlt, if_neg hlt]
    split
    · split
      · rfl
      · rfl
    · rfl

/-- The working sum and running maximum after `k` loop iterations. -/
theorem region_fold_ws_densest (words : List α) (len : Nat) :
    ∀ k,
      ((List.range k).foldl (regionStep words len)
        ⟨windowSum words len 0, windowSum words len 0, [0]⟩).workingSum
        = windowSum words len k
      ∧ ((List.range k).foldl (regionStep words len)
        ⟨windowSum words len 0, windowSum words len 0, [0]⟩).densest
        = stageMax words len k := by
  intro k
  induction k with
  | zero => exact ⟨rfl, rfl⟩
  | succ k ih =>
    rw [List.range_succ, List.foldl_append]
    simp only [List.foldl_cons, List.foldl_nil]
    constructor
    · rw [regionStep_workingSum, ih.1, ← windowSum_succ]
    · rw [regionStep_densest, ih.1, ih.2, ← windowSum_succ]
      rfl

theorem regionStep_reset (words : List α) (len : Nat) (st : RegionState α) (i : Nat)
    (h : st.densest < st.workingSum + words.getD (i + len) 0 - words.getD i 0) :
    regionStep words len st i
      = ⟨st.workingSum + words.getD (i + len) 0 - words.getD i 0,
          st.workingSum + words.getD (i + len) 0 - words.getD i 0, [i]⟩ := by
  rcases st with ⟨d, w, A⟩
  rw [regionStep_eval]
  rw [if_pos h]

theorem range'_concat (s c : Nat) : List.range' s (c + 1) = List.range' s c ++ [s + c] := by
  rw [show c + 1 = 1 + c from by omega]
  rw [← List.range'_append s c 1 1]
  congr 1
  simp [List.range'_succ]

theorem getLast?_range'_pos : ∀ (c s : Nat), 0 < c →
    (List.range' s c).getLast? = some (s + c - 1) := by
  intro c
  induction c with
  | zero => intro s h; omega
  | succ c ih =>
    intro s _
    cases c with
    | zero => simp [List.range'_succ]
    | succ c' =>
      rw [List.range'_succ, List.range'_succ, List.getLast?_cons_cons, ← List.range'_succ]
      rw [ih (s + 1) (by omega)]
      congr 1
      omega

/-- After the running maximum `M` is first reached (at window `f ≥ 1`, loop
index `f - 1`), the loop appends loop indices only while consecutive windows
keep achieving `M`; processing loop indices `f .. f+m-1` leaves the recorded
list `range' (f-1) (min r (m+1))`. -/
theorem region_suffix_first (words : List α) (len : Nat) (M : α) (f : Nat)
    (hf : 1 ≤ f)
    (hWf : windowSum words len f = M)
    (hmax : ∀ i, i ≤ words.length → windowSum words len i ≤ M) :
    ∀ m, f + m ≤ words.length →
      (List.range' f m).foldl (regionStep words len) ⟨M, windowSum words len f, [f - 1]⟩
        = ⟨M, windowSum words len (f + m),
            List.range' (f - 1)
              (min (runCount words len M f (words.length + 1 - f)) (m + 1))⟩ := by
  intro m
  induction m with
  | zero =>
    intro h0
    have hr1 : 1 ≤ runCount words len M f (words.length + 1 - f) :=
      runCount_pos words len M (by omega) hWf
    rw [List.range'_zero, List.foldl_nil]
    rw [show min (runCount words len M f (words.length + 1 - f)) (0 + 1) = 1 from by omega]
    rw [List.range'_one, Nat.add_zero]
  | succ m ih =>
    intro hm
    have hmle : f + m ≤ words.length := by omega
    rw [range'_concat, List.foldl_append, ih hmle]
    simp only [List.foldl_cons, List.foldl_nil]
    obtain ⟨hr1, hr2, hr3⟩ := runCount_spec words len M (words.length + 1 - f) f
    have hrpos : 1 ≤ runCount words len M f (words.length + 1 - f) :=
      runCount_pos words len M (by omega) hWf
    set r := runCount words len M f (words.length + 1 - f) with hrdef
    have hws : windowSum words len (f + m) + words.getD (f + m + len) 0
        - words.getD (f + m) 0 = windowSum words len (f + m + 1) :=
      (windowSum_succ words len (f + m)).symm
    rw [regionStep_eval, hws]
    have hminpos : 1 ≤ min r (m + 1) := by omega
    rw [if_neg (not_lt.mpr (hmax (f + m + 1) (by omega)))]
    rw [getLast?_range'_pos (min r (m + 1)) (f - 1) (by omega)]
    simp only
    rcases lt_trichotomy (m + 1) r with hc | hc | hc
    · -- still inside the run: push
      have hWm : windowSum words len (f + m + 1) = M := by
        rw [show f + m + 1 = f + (m + 1) from by omega]
        exact hr1 (m + 1) hc
      rw [if_pos ⟨hWm, by omega⟩]
      have hL : List.range' (f - 1) (min r (m + 1)) ++ [f + m]
          = List.range' (f - 1) (min r (m + 1 + 1)) := by
        rw [show min r (m + 1) = m + 1 from by omega,
          show min r (m + 1 + 1) = m + 1 + 1 from by omega]
        rw [range'_concat (f - 1) (m + 1)]
        rw [show f - 1 + (m + 1) = f + m from by omega]
      rw [hL, show f + (m + 1) = f + m + 1 from by omega]
    · -- the run ends exactly here: the next window does not achieve M
      have hnot : windowSum words len (f + m + 1) ≠ M := by
        rw [show f + m + 1 = f + r from by omega]
        exact hr3 (by omega)
      rw [if_neg (fun hand => hnot hand.1)]
      rw [show min r (m + 1) = min r (m + 1 + 1) from by omega,
        show f + (m + 1) = f + m + 1 from by omega]
    · -- the run ended earlier: the recorded list's last index is not i - 1
      have hfalse : ¬(windowSum words len (f + m + 1) = M
          ∧ f + m = f - 1 + min r (m + 1) - 1 + 1) := by
        rintro ⟨-, h2⟩
        omega
      rw [if_neg hfalse]
      rw [show min r (m + 1) = min r (m + 1 + 1) from by omega,
        show f + (m + 1) = f + m + 1 from by omega]

/-- When the initial window already achieves the maximum `M`, no reset ever
happens; the first loop iteration cannot push (the JS `i - 1` is `-1`), so the
window starting at offset 1 is never recorded, and ties are then appended
while consecutive windows from start offset 2 keep achieving `M`. -/
theorem region_fold_caseB (words : List α) (len : Nat) (M : α)
    (hmax : ∀ i, i ≤ words.length → windowSum words len i ≤ M) :
    ∀ m, m ≤ words.length →
      (List.range m).foldl (regionStep words len) ⟨M, windowSum words len 0, [0]⟩
        = ⟨M, windowSum words len m,
            List.range (min (runCount words len M 2 (words.length - 1)) (m - 1) + 1)⟩ := by
  intro m
  induction m with
  | zero =>
    intro _
    rw [List.range_zero, List.foldl_nil]
    rw [show min (runCount words len M 2 (words.length - 1)) (0 - 1) = 0 from by omega]
    rfl
  | succ m ih =>
    intro hm
    rw [List.range_succ, List.foldl_append, ih (by omega)]
    simp only [List.foldl_cons, List.foldl_nil]
    obtain ⟨hq1, hq2, hq3⟩ := runCount_spec words len M (words.length - 1) 2
    set r2 := runCount words len M 2 (words.length - 1) with hr2def
    have hws : windowSum words len m + words.getD (m + len) 0 - words.getD m 0
        = windowSum words len (m + 1) := (windowSum_succ words len m).symm
    rw [regionStep_eval, hws]
    rw [if_neg (not_lt.mpr (hmax (m + 1) (by omega)))]
    have hlast : (List.range (min r2 (m - 1) + 1)).getLast?
        = some (min r2 (m - 1)) := by
      rw [List.range_eq_range']
      rw [getLast?_range'_pos (min r2 (m - 1) + 1) 0 (by omega)]
      congr 1
      omega
    rw [hlast]
    simp only
    by_cases hm0 : m = 0
    · subst hm0
      rw [if_neg (fun hand => by omega)]
    · rcases lt_trichotomy (m - 1) r2 with hc | hc | hc
      · have hWm : windowSum words len (m + 1) = M := by
          rw [show m + 1 = 2 + (m - 1) from by omega]
          exact hq1 (m - 1) hc
        rw [if_pos ⟨hWm, by omega⟩]
        have hL : List.range (min r2 (m - 1) + 1) ++ [m]
            = List.range (min r2 (m + 1 - 1) + 1) := by
          rw [show min r2 (m - 1) + 1 = m from by omega,
            show min r2 (m + 1 - 1) + 1 = m + 1 from by omega]
          exact (List.range_succ m).symm
        rw [hL]
      · have hnot : windowSum words len (m + 1) ≠ M := by
          rw [show m + 1 = 2 + r2 from by omega]
          exact hq3 (by omega)
        rw [if_neg (fun hand => hnot hand.1)]
        rw [show min r2 (m - 1) = min r2 (m + 1 - 1) from by omega]
      · rw [if_neg (fun hand => by omega)]
        rw [show min r2 (m - 1) = min r2 (m + 1 - 1) from by omega]

theorem stageMax_achieved (words : List α) (len : Nat) :
    ∀ k, ∃ i, i ≤ k ∧ stageMax words len k = windowSum words len i := by
  intro k
  induction k with
  | zero => exact ⟨0, le_refl 0, rfl⟩
  | succ k ih =>
    unfold stageMax
    split
    · exact ⟨k + 1, le_refl _, rfl⟩
    · obtain ⟨i, hi, he⟩ := ih
      exact ⟨i, by omega, he⟩

theorem firstMaxIdx_spec (words : List α) (len : Nat) :
    windowSum words len (firstMaxIdx words len) = stageMax words len words.length
    ∧ firstMaxIdx words len ≤ words.length
    ∧ ∀ j < firstMaxIdx words len,
        windowSum words len j ≠ stageMax words len words.length := by
  obtain ⟨i0, hi0, he0⟩ := stageMax_achieved words len words.length
  cases hfind : (List.range (words.length + 1)).find?
      (fun i => windowSum words len i = stageMax words len words.length) with
  | none =>
    rw [List.find?_eq_none] at hfind
    exact absurd (by simp [he0.symm]) (hfind i0 (List.mem_range.mpr (by omega)))
  | some i =>
    obtain ⟨hpi, hilt, hmin⟩ := find?_range_min hfind
    have hidx : firstMaxIdx words len = i := by
      unfold firstMaxIdx
      rw [hfind]
      rfl
    rw [hidx]
    refine ⟨by simpa using hpi, by omega, fun j hj => ?_⟩
    have := hmin j hj
    simpa using this

/-- C4 as amended (full characterization of `calculateExcerptRegion` past the
guards): with `M` the maximum sliding-window sum, the function returns
`(r₂ + 1) / 2` when the initial window achieves `M` (`r₂` = number of
consecutive `M`-windows starting at offset 2; the window at offset 1 is never
recorded), and otherwise `(F - 1) + r / 2`, where `F` is the first window
offset achieving `M` and `r` the length of the FIRST contiguous run of
`M`-windows from `F` — i.e. the recorded indices are one less than the true
start offsets, only the first contiguous run of ties is tracked, and the
middle of that run is returned. -/
theorem calculateExcerptRegion_characterization
    (wp : List (WeightedLocation α)) (len : Nat)
    (words : List α) (M : α) (F r r2 : Nat)
    (hwords : words = accumulateScores wp)
    (hne : wp ≠ []) (hlen : len < words.length)
    (hM : M = stageMax words len words.length)
    (hF : F = firstMaxIdx words len)
    (hr : r = runCount words len M F (words.length + 1 - F))
    (hr2 : r2 = runCount words len M 2 (words.length - 1)) :
    calculateExcerptRegion wp len =
      if windowSum words len 0 = M then (r2 + 1) / 2 else (F - 1) + r / 2 := by
  subst hwords hM hF hr hr2
  have hmax : ∀ i, i ≤ (accumulateScores wp).length →
      windowSum (accumulateScores wp) len i
        ≤ stageMax (accumulateScores wp) len (accumulateScores wp).length :=
    fun i hi => le_stageMax _ len hi
  unfold calculateExcerptRegion
  rw [if_neg hne]
  show (if (accumulateScores wp).length ≤ len then 0
    else
      (((List.range (accumulateScores wp).length).foldl
          (regionStep (accumulateScores wp) len)
          ⟨((accumulateScores wp).take len).sum,
            ((accumulateScores wp).take len).sum, [0]⟩).densestAt.getD
        (((List.range (accumulateScores wp).length).foldl
          (regionStep (accumulateScores wp) len)
          ⟨((accumulateScores wp).take len).sum,
            ((accumulateScores wp).take len).sum, [0]⟩).densestAt.length / 2) 0)) = _
  rw [if_neg (not_le.mpr hlen)]
  rw [take_sum_eq_windowSum _ len (le_of_lt hlen)]
  by_cases hcase : windowSum (accumulateScores wp) len 0
      = stageMax (accumulateScores wp) len (accumulateScores wp).length
  · -- initial window is maximal
    rw [if_pos hcase]
    have hcaseB := region_fold_caseB (accumulateScores wp) len
      (stageMax (accumulateScores wp) len (accumulateScores wp).length) hmax
      (accumulateScores wp).length (le_refl _)
    rw [show (⟨windowSum (accumulateScores wp) len 0,
        windowSum (accumulateScores wp) len 0, [0]⟩ : RegionState α)
      = ⟨stageMax (accumulateScores wp) len (accumulateScores wp).length,
          windowSum (accumulateScores wp) len 0, [0]⟩ from by rw [hcase]]
    rw [hcaseB]
    have hr2le : runCount (accumulateScores wp) len
        (stageMax (accumulateScores wp) len (accumulateScores wp).length) 2
        ((accumulateScores wp).length - 1) ≤ (accumulateScores wp).length - 1 :=
      (runCount_spec _ len _ ((accumulateScores wp).length - 1) 2).2.1
    rw [show min (runCount (accumulateScores wp) len
        (stageMax (accumulateScores wp) len (accumulateScores wp).length) 2
        ((accumulateScores wp).length - 1)) ((accumulateScores wp).length - 1)
      = runCount (accumulateScores wp) len
        (stageMax (accumulateScores wp) len (accumulateScores wp).length) 2
        ((accumulateScores wp).length - 1) from by omega]
    simp only
    rw [List.length_range]
    rw [List.getD_eq_getElem?_getD,
      List.getElem?_eq_getElem (by rw [List.length_range]; omega)]
    simp [List.getElem_range]
  · rw [if_neg hcase]
    obtain ⟨hWF, hFle, hFmin⟩ := firstMaxIdx_spec (accumulateScores wp) len
    have hF1 : 1 ≤ firstMaxIdx (accumulateScores wp) len := by
      rcases Nat.eq_zero_or_pos (firstMaxIdx (accumulateScores wp) len) with h0 | h0
      · rw [h0] at hWF
        exact absurd hWF hcase
      · omega
    have hltM : stageMax (accumulateScores wp) len
        (firstMaxIdx (accumulateScores wp) len - 1)
        < stageMax (accumulateScores wp) len (accumulateScores wp).length := by
      apply stageMax_lt_of
      intro i hi
      exact lt_of_le_of_ne (hmax i (by omega)) (hFmin i (by omega))
    have hsplit : List.range (accumulateScores wp).length
        = (List.range (firstMaxIdx (accumulateScores wp) len - 1)
            ++ [firstMaxIdx (accumulateScores wp) len - 1])
          ++ List.range' (firstMaxIdx (accumulateScores wp) len)
              ((accumulateScores wp).length - firstMaxIdx (accumulateScores wp) len) := by
      have hcat : List.range (firstMaxIdx (accumulateScores wp) len - 1)
          ++ [firstMaxIdx (accumulateScores wp) len - 1]
          = List.range (firstMaxIdx (accumulateScores wp) len) := by
        rw [← List.range_succ]
        congr 1
        omega
      rw [hcat, List.range_eq_range', List.range_eq_range']
      have := List.range'_append 0 (firstMaxIdx (accumulateScores wp) len)
        ((accumulateScores wp).length - firstMaxIdx (accumulateScores wp) len) 1
      rw [show 0 + 1 * firstMaxIdx (accumulateScores wp) len
        = firstMaxIdx (accumulateScores wp) len from by omega] at this
      rw [show (accumulateScores wp).length - firstMaxIdx (accumulateScores wp) len
        + firstMaxIdx (accumulateScores wp) len = (accumulateScores wp).length
        from by omega] at this
      exact this.symm
    rw [hsplit, List.foldl_append, List.foldl_append]
    simp only [List.foldl_cons, List.foldl_nil]
    have hSw := (region_fold_ws_densest (accumulateScores wp) len
      (firstMaxIdx (accumulateScores wp) len - 1)).1
    have hSd := (region_fold_ws_densest (accumulateScores wp) len
      (firstMaxIdx (accumulateScores wp) len - 1)).2
    have hreset : regionStep (accumulateScores wp) len
        ((List.range (firstMaxIdx (accumulateScores wp) len - 1)).foldl
          (regionStep (accumulateScores wp) len)
          ⟨windowSum (accumulateScores wp) len 0,
            windowSum (accumulateScores wp) len 0, [0]⟩)
        (firstMaxIdx (accumulateScores wp) len - 1)
        = ⟨stageMax (accumulateScores wp) len (accumulateScores wp).length,
            windowSum (accumulateScores wp) len (firstMaxIdx (accumulateScores wp) len),
            [firstMaxIdx (accumulateScores wp) len - 1]⟩ := by
      have htel : windowSum (accumulateScores wp) len
            (firstMaxIdx (accumulateScores wp) len - 1)
          + (accumulateScores wp).getD
              (firstMaxIdx (accumulateScores wp) len - 1 + len) 0
          - (accumulateScores wp).getD (firstMaxIdx (accumulateScores wp) len - 1) 0
          = windowSum (accumulateScores wp) len
              (firstMaxIdx (accumulateScores wp) len) := by
        rw [show firstMaxIdx (accumulateScores wp) len
          = firstMaxIdx (accumulateScores wp) len - 1 + 1 from by omega]
        rw [show firstMaxIdx (accumulateScores wp) len - 1 + 1 - 1
          = firstMaxIdx (accumulateScores wp) len - 1 from by omega]
        exact (windowSum_succ _ len _).symm
      rw [regionStep_reset _ _ _ _ (by
        rw [hSw, hSd, htel, hWF]
        exact hltM)]
      rw [hSw, htel, hWF]
    rw [hreset]
    rw [region_suffix_first (accumulateScores wp) len
      (stageMax (accumulateScores wp) len (accumulateScores wp).length)
      (firstMaxIdx (accumulateScores wp) len) hF1 hWF hmax
      ((accumulateScores wp).length - firstMaxIdx (accumulateScores wp) len)
      (by omega)]
    have hrle : runCount (accumulateScores wp) len
        (stageMax (accumulateScores wp) len (accumulateScores wp).length)
        (firstMaxIdx (accumulateScores wp) len)
        ((accumulateScores wp).length + 1 - firstMaxIdx (accumulateScores wp) len)
        ≤ (accumulateScores wp).length + 1 - firstMaxIdx (accumulateScores wp) len :=
      (runCount_spec _ len _ _ _).2.1
    have hr1 : 1 ≤ runCount (accumulateScores wp) len
        (stageMax (accumulateScores wp) len (accumulateScores wp).length)
        (firstMaxIdx (accumulateScores wp) len)
        ((accumulateScores wp).length + 1 - firstMaxIdx (accumulateScores wp) len) :=
      runCount_pos _ len _ (by omega) hWF
    rw [show min (runCount (accumulateScores wp) len
        (stageMax (accumulateScores wp) len (accumulateScores wp).length)
        (firstMaxIdx (accumulateScores wp) len)
        ((accumulateScores wp).length + 1 - firstMaxIdx (accumulateScores wp) len))
        ((accumulateScores wp).length - firstMaxIdx (accumulateScores wp) len + 1)
      = runCount (accumulateScores wp) len
        (stageMax (accumulateScores wp) len (accumulateScores wp).length)
        (firstMaxIdx (accumulateScores wp) len)
        ((accumulateScores wp).length + 1 - firstMaxIdx (accumulateScores wp) len)
      from by omega]
    simp only
    rw [List.length_range']
    rw [List.getD_eq_getElem?_getD,
      List.getElem?_eq_getElem (by rw [List.length_range']; omega)]
    rw [List.getElem_range']
    simp only [Option.getD_some]
    omega

end RegionProofs2

theorem calculateExcerptRegion_characterization_witness :
    calculateExcerptRegion
      ([⟨1, 0, 0⟩, ⟨1, 9, 1⟩, ⟨1, 9, 2⟩, ⟨1, 9, 3⟩, ⟨1, 0, 4⟩] :
        List (WeightedLocation Int)) 1 = 1 := by
  have h := calculateExcerptRegion_characterization
    ([⟨1, 0, 0⟩, ⟨1, 9, 1⟩, ⟨1, 9, 2⟩, ⟨1, 9, 3⟩, ⟨1, 0, 4⟩] :
      List (WeightedLocation Int)) 1
    (accumulateScores ([⟨1, 0, 0⟩, ⟨1, 9, 1⟩, ⟨1, 9, 2⟩, ⟨1, 9, 3⟩, ⟨1, 0, 4⟩] :
      List (WeightedLocation Int)))
    (stageMax (accumulateScores ([⟨1, 0, 0⟩, ⟨1, 9, 1⟩, ⟨1, 9, 2⟩, ⟨1, 9, 3⟩, ⟨1, 0, 4⟩] :
      List (WeightedLocation Int))) 1
      (accumulateScores ([⟨1, 0, 0⟩, ⟨1, 9, 1⟩, ⟨1, 9, 2⟩, ⟨1, 9, 3⟩, ⟨1, 0, 4⟩] :
        List (WeightedLocation Int))).length)
    (firstMaxIdx (accumulateScores
      ([⟨1, 0, 0⟩, ⟨1, 9, 1⟩, ⟨1, 9, 2⟩, ⟨1, 9, 3⟩, ⟨1, 0, 4⟩] :
        List (WeightedLocation Int))) 1)
    _ _ rfl (by decide) (by decide) rfl rfl rfl rfl
  rw [h]
  decide

/-- C4 counterexample: for balanced scores `[0, 9, 9, 9, 0]` at offsets
`0..4` and window size 1, the maximal window sum 9 is achieved at start
offsets {1, 2, 3}; the middle of that (unique, hence maximal) contiguous run
is 2, but the code returns 1: the loop records the window starting at `i + 1`
under index `i`, so the returned offset is one less than the true middle
start offset.  (All values are exactly representable floats, so the integer
instantiation is exact.) -/
theorem calculateExcerptRegion_cex :
    calculateExcerptRegion
      ([⟨1, 0, 0⟩, ⟨1, 9, 1⟩, ⟨1, 9, 2⟩, ⟨1, 9, 3⟩, ⟨1, 0, 4⟩] :
        List (WeightedLocation Int)) 1 = 1 ∧
    claimedDensestRegion
      ([⟨1, 0, 0⟩, ⟨1, 9, 1⟩, ⟨1, 9, 2⟩, ⟨1, 9, 3⟩, ⟨1, 0, 4⟩] :
        List (WeightedLocation Int)) 1 = 2 := by
  constructor
  · decide
  · decide

/-! ## Excerpt construction (`buildExcerpt`)

JS array semantics: a write past the end extends the array with holes; holes
and out-of-range reads are `undefined`; `Array.prototype.join` renders holes
and `undefined` as the empty string; a write to a negative index is a plain
property assignment, invisible to indexed reads, `length`, `slice` and
`join`.  Tokens are JS strings (`List Nat`); the token array is
`List (Option (List Nat))` with `none` for holes. -/

/-- Zero-width space U+200B. -/
def zwsCode : Nat := 0x200B

mutual

/-- `content.split(/[\r\n\s]+/g)`: accumulate the current token. -/
def splitWsGo (acc : List Nat) : List Nat → List (List Nat)
  | [] => [acc.reverse]
  | c :: cs =>
    if isJsWs c then acc.reverse :: splitWsSkip cs else splitWsGo (c :: acc) cs

/-- `content.split(/[\r\n\s]+/g)`: skip the rest of a separator run. -/
def splitWsSkip : List Nat → List (List Nat)
  | [] => [[]]
  | c :: cs => if isJsWs c then splitWsSkip cs else splitWsGo [c] cs

end

/-- Tokenization in `buildExcerpt`: split on U+200B when present (pre-tokenized
content), else on runs of whitespace. -/
def tokenizeWords (content : List Nat) : List (List Nat) :=
  if content.contains zwsCode then splitOnSep [zwsCode] content
  else splitWsGo [] content

/-- `arr[i]` (undefined for holes, out-of-range and negative indices). -/
def jsArrGet {β : Type} (arr : List (Option β)) (i : Int) : Option β :=
  if 0 ≤ i then arr.getD i.toNat none else none

/-- `arr[i] = v`. -/
def jsArrSet {β : Type} (arr : List (Option β)) (i : Int) (v : β) : List (Option β) :=
  if i < 0 then arr
  else if i.toNat < arr.length then arr.set i.toNat (some v)
  else arr ++ List.replicate (i.toNat - arr.length) none ++ [some v]

def markPre : List Nat := strCodes "<mark>"
def markPost : List Nat := strCodes "</mark>"
def undefinedStr : List Nat := strCodes "undefined"

/-- One step of the highlight loop of `buildExcerpt`:
`if (fragmentWords[word]?.startsWith('<mark>')) continue;
 fragmentWords[word] = `<mark>${fragmentWords[word]}</mark>`;`
(the template literal renders `undefined` as the string `undefined`). -/
def markStep (toks : List (Option (List Nat))) (w : Int) : List (Option (List Nat)) :=
  match jsArrGet toks w with
  | some tok =>
    if markPre.isPrefixOf tok then toks
    else jsArrSet toks w (markPre ++ tok ++ markPost)
  | none => jsArrSet toks w (markPre ++ undefinedStr ++ markPost)

def markWords (tokens : List (Option (List Nat))) (locations : List Int) :
    List (Option (List Nat)) :=
  locations.foldl markStep tokens

/-- `Array.prototype.slice(start, end)` with JS negative-index handling. -/
def jsSlice {β : Type} (l : List β) (s e : Int) : List β :=
  let n : Int := l.length
  let s' := if s < 0 then max (n + s) 0 else min s n
  let e' := if e < 0 then max (n + e) 0 else min e n
  (l.take e'.toNat).drop s'.toNat

/-- `join(sep)` with holes and `undefined` rendered as the empty string. -/
def joinTokens (toks : List (Option (List Nat))) (sep : List Nat) : List Nat :=
  List.intercalate sep (toks.map (fun t => t.getD []))

/-- `buildExcerpt` from `pagefind-client.ts`. -/
def buildExcerpt (content : List Nat) (start0 length0 : Int) (locations : List Int)
    (notBefore notFrom : Option Int) : List Nat :=
  let isZws := content.contains zwsCode
  let fragmentWords := markWords ((tokenizeWords content).map some) locations
  let endcap : Int := notFrom.getD fragmentWords.length
  let startcap : Int := notBefore.getD 0
  let length1 := if endcap - startcap < length0 then endcap - startcap else length0
  let start1 := if endcap < start0 + length1 then endcap - length1 else start0
  let start2 := if start1 < startcap then startcap else start1
  trimWs (joinTokens (jsSlice fragmentWords start2 (start2 + length1))
    (if isZws then [] else [32]))

theorem getD_append_lt {β : Type} :
    ∀ (l l' : List β) (n : Nat) (d : β), n < l.length → (l ++ l').getD n d = l.getD n d := by
  intro l
  induction l with
  | nil => intro l' n d h; simp at h
  | cons x xs ih =>
    intro l' n d h
    cases n with
    | zero => rfl
    | succ n' =>
      rw [List.cons_append]
      show (xs ++ l').getD n' d = xs.getD n' d
      exact ih l' n' d (by simpa using h)

theorem getD_append_ge {β : Type} :
    ∀ (l l' : List β) (n : Nat) (d : β), l.length ≤ n →
      (l ++ l').getD n d = l'.getD (n - l.length) d := by
  intro l
  induction l with
  | nil => intro l' n d h; rfl
  | cons x xs ih =>
    intro l' n d h
    cases n with
    | zero => simp at h
    | succ n' =>
      rw [List.cons_append]
      show (xs ++ l').getD n' d = l'.getD (n' + 1 - (xs.length + 1)) d
      rw [show n' + 1 - (xs.length + 1) = n' - xs.length from by omega]
      exact ih l' n' d (by simpa using h)

theorem getD_replicate_d {β : Type} :
    ∀ (k j : Nat) (d : β), (List.replicate k d).getD j d = d := by
  intro k
  induction k with
  | zero => intro j d; cases j <;> rfl
  | succ k ih =>
    intro j d
    cases j with
    | zero => rfl
    | succ j' => exact ih j' d

theorem getD_set_self {β : Type} :
    ∀ (l : List β) (n : Nat) (v d : β), n < l.length → (l.set n v).getD n d = v := by
  intro l
  induction l with
  | nil => intro n v d h; simp at h
  | cons x xs ih =>
    intro n v d h
    cases n with
    | zero => rfl
    | succ n' => exact ih n' v d (by simpa using h)

theorem getD_set_ne {β : Type} :
    ∀ (l : List β) (n m : Nat) (v d : β), n ≠ m → (l.set n v).getD m d = l.getD m d := by
  intro l
  induction l with
  | nil => intro n m v d h; rfl
  | cons x xs ih =>
    intro n m v d h
    cases n with
    | zero =>
      cases m with
      | zero => exact absurd rfl h
      | succ m' => rfl
    | succ n' =>
      cases m with
      | zero => rfl
      | succ m' => exact ih n' m' v d (by omega)

theorem jsArrGet_set_self {β : Type} (arr : List (Option β)) (i : Int) (v : β)
    (h : 0 ≤ i) : jsArrGet (jsArrSet arr i v) i = some v := by
  unfold jsArrGet jsArrSet
  rw [if_pos h, if_neg (not_lt.mpr h)]
  by_cases hlen : i.toNat < arr.length
  · rw [if_pos hlen]
    exact getD_set_self arr i.toNat (some v) none hlen
  · rw [if_neg hlen]
    rw [List.append_assoc]
    rw [getD_append_ge arr _ i.toNat none (by omega)]
    have hreplen : (List.replicate (i.toNat - arr.length) (none : Option β)).length
        = i.toNat - arr.length := List.length_replicate _ _
    rw [getD_append_ge _ _ _ none (by rw [hreplen])]
    rw [hreplen]
    rw [show i.toNat - arr.length - (i.toNat - arr.length) = 0 from by omega]
    rfl

theorem jsArrGet_set_ne {β : Type} (arr : List (Option β)) (i j : Int) (v : β)
    (hne : j ≠ i) : jsArrGet (jsArrSet arr j v) i = jsArrGet arr i := by
  unfold jsArrGet jsArrSet
  by_cases hj : j < 0
  · rw [if_pos hj]
  · rw [if_neg hj]
    by_cases hi : 0 ≤ i
    · rw [if_pos hi, if_pos hi]
      have hij : j.toNat ≠ i.toNat := by omega
      by_cases hlen : j.toNat < arr.length
      · rw [if_pos hlen]
        exact getD_set_ne arr j.toNat i.toNat (some v) none hij
      · rw [if_neg hlen]
        by_cases hilen : i.toNat < arr.length
        · rw [List.append_assoc, getD_append_lt arr _ i.toNat none hilen]
        · rw [List.append_assoc, getD_append_ge arr _ i.toNat none (by omega)]
          have hreplen : (List.replicate (j.toNat - arr.length) (none : Option β)).length
              = j.toNat - arr.length := List.length_replicate _ _
          by_cases hij2 : i.toNat - arr.length < j.toNat - arr.length
          · rw [getD_append_lt _ _ _ none (by rw [hreplen]; exact hij2)]
            rw [getD_replicate_d]
            rw [List.getD_eq_getElem?_getD, List.getElem?_eq_none (by omega)]
            rfl
          · rw [getD_append_ge _ _ _ none (by rw [hreplen]; omega)]
            rw [hreplen]
            rw [List.getD_eq_getElem?_getD,
              List.getElem?_eq_none (by
                simp only [List.length_singleton]
                omega)]
            rw [List.getD_eq_getElem?_getD, List.getElem?_eq_none (by omega)]
    · rw [if_neg hi, if_neg hi]

theorem isPrefixOf_append_self (p x : List Nat) : p.isPrefixOf (p ++ x) = true := by
  induction p with
  | nil => simp [List.isPrefixOf]
  | cons a as ih =>
    rw [List.cons_append]
    show (a == a && as.isPrefixOf (as ++ x)) = true
    rw [beq_self_eq_true, ih]
    rfl

theorem markStep_get_ne (toks : List (Option (List Nat))) (w o : Int) (hne : w ≠ o) :
    jsArrGet (markStep toks w) o = jsArrGet toks o := by
  unfold markStep
  cases hg : jsArrGet toks w with
  | some tok =>
    show jsArrGet (if markPre.isPrefixOf tok then toks
      else jsArrSet toks w (markPre ++ tok ++ markPost)) o = jsArrGet toks o
    by_cases hp : markPre.isPrefixOf tok
    · rw [if_pos hp]
    · rw [if_neg hp]
      exact jsArrGet_set_ne toks o w _ hne
  | none =>
    show jsArrGet (jsArrSet toks w (markPre ++ undefinedStr ++ markPost)) o
      = jsArrGet toks o
    exact jsArrGet_set_ne toks o w _ hne

theorem markStep_preserve (toks : List (Option (List Nat))) (w o : Int)
    (h : jsArrGet toks o = some (markPre ++ undefinedStr ++ markPost)) :
    jsArrGet (markStep toks w) o = some (markPre ++ undefinedStr ++ markPost) := by
  by_cases hw : w = o
  · subst hw
    unfold markStep
    rw [h]
    show jsArrGet (if markPre.isPrefixOf (markPre ++ undefinedStr ++ markPost) then toks
      else jsArrSet toks w (markPre ++ (markPre ++ undefinedStr ++ markPost) ++ markPost)) w
      = some (markPre ++ undefinedStr ++ markPost)
    rw [if_pos (by
      rw [List.append_assoc]
      exact isPrefixOf_append_self markPre (undefinedStr ++ markPost))]
    exact h
  · rw [markStep_get_ne toks w o hw]
    exact h

theorem markWords_preserve :
    ∀ (locs : List Int) (toks : List (Option (List Nat))) (o : Int),
      jsArrGet toks o = some (markPre ++ undefinedStr ++ markPost) →
      jsArrGet (markWords toks locs) o = some (markPre ++ undefinedStr ++ markPost) := by
  intro locs
  induction locs with
  | nil => intro toks o h; exact h
  | cons w rest ih =>
    intro toks o h
    show jsArrGet (markWords (markStep toks w) rest) o = _
    exact ih (markStep toks w) o (markStep_preserve toks w o h)

theorem markWords_oob :
    ∀ (locs : List Int) (toks : List (Option (List Nat))) (o : Int), 0 ≤ o →
      (jsArrGet toks o = none
        ∨ jsArrGet toks o = some (markPre ++ undefinedStr ++ markPost)) →
      o ∈ locs →
      jsArrGet (markWords toks locs) o = some (markPre ++ undefinedStr ++ markPost) := by
  intro locs
  induction locs with
  | nil => intro toks o _ _ hmem; simp at hmem
  | cons w rest ih =>
    intro toks o ho hget hmem
    show jsArrGet (markWords (markStep toks w) rest) o = _
    by_cases hw : w = o
    · subst hw
      have hstep : jsArrGet (markStep toks w) w
          = some (markPre ++ undefinedStr ++ markPost) := by
        rcases hget with hn | hm
        · unfold markStep
          rw [hn]
          show jsArrGet (jsArrSet toks w (markPre ++ undefinedStr ++ markPost)) w
            = some (markPre ++ undefinedStr ++ markPost)
          exact jsArrGet_set_self toks w _ ho
        · exact markStep_preserve toks w w hm
      exact markWords_preserve rest (markStep toks w) w hstep
    · have hmem' : o ∈ rest := by
        rcases List.mem_cons.mp hmem with h0 | h0
        · exact absurd h0.symm hw
        · exact h0
      refine ih (markStep toks w) o ho ?_ hmem'
      rw [markStep_get_ne toks w o hw]
      exact hget

/-- C10: a highlight offset at or past the token count is not ignored: the
token array is extended and the literal token `<mark>undefined</mark>` is
written at that offset; consequently the text `undefined` can appear in the
returned excerpt when the clamped window covers the offset, as the concrete
evaluation shows. -/
theorem buildExcerpt_oob_writes_undefined (content : List Nat)
    (locations : List Int) (o : Int) (ho : o ∈ locations)
    (hoob : ((tokenizeWords content).length : Int) ≤ o) :
    jsArrGet (markWords ((tokenizeWords content).map some) locations) o
      = some (markPre ++ undefinedStr ++ markPost)
  ∧ buildExcerpt (strCodes "one two") 0 6 [5] none none
      = strCodes "one two    <mark>undefined</mark>" := by
  constructor
  · refine markWords_oob locations ((tokenizeWords content).map some) o
      (by omega) (Or.inl ?_) ho
    unfold jsArrGet
    rw [if_pos (by omega)]
    rw [List.getD_eq_getElem?_getD,
      List.getElem?_eq_none (by rw [List.length_map]; omega)]
    rfl
  · decide

theorem buildExcerpt_oob_writes_undefined_witness :
    jsArrGet (markWords ((tokenizeWords (strCodes "one two")).map some) [5]) 5
      = some (markPre ++ undefinedStr ++ markPost) :=
  (buildExcerpt_oob_writes_undefined (strCodes "one two") [5] 5
    (by decide) (by decide)).1

/-! ## Sub-result segmentation (`calculateSubResults`)

`new URL(...)`, `fqUrl.hash = id` and `toString()` are platform APIs; the hash
assignment is modelled as: strip any existing fragment, then append `#id`
(setting an empty id removes the hash).  WHATWG percent-encoding/normalization
of the path is abstracted (identity); no claim depends on it.  The placeholder
origin `https://example.com` prepended to site-relative urls is stripped back
out by the code, so it cancels in this model. -/

/-- An anchor record of a fragment; `text` may be absent at runtime
(the code guards with `a.text?.length`). -/
structure PagefindAnchor where
  element : List Nat
  id : List Nat
  text : Option (List Nat)
  location : Int
  deriving DecidableEq, Repr

/-- `/h\d/i.test(element)`: an `h` or `H` immediately followed by a digit,
anywhere in the string. -/
def hasHDigit : List Nat → Bool
  | [] => false
  | c :: rest =>
    (match rest with
      | [] => false
      | c2 :: _ => (c = 104 || c = 72) && isDigit c2) || hasHDigit rest

/-- The anchor filter: heading element with nonempty, non-blank text. -/
def isHeadingAnchor (a : PagefindAnchor) : Bool :=
  hasHDigit a.element &&
    (match a.text with
      | some t => !t.isEmpty && t.any (fun c => !isJsWs c)
      | none => false)

/-- Stable sort by `location` (`anchors.sort((a, b) => a.location - b.location)`;
`Array.prototype.sort` is stable): the earlier element stays in front of
equal-location later ones, so the folded-in earlier element passes a later
element only when that element's location is strictly smaller. -/
def insertByLoc (a : PagefindAnchor) : List PagefindAnchor → List PagefindAnchor
  | [] => [a]
  | b :: bs => if b.location < a.location then b :: insertByLoc a bs else a :: b :: bs

def sortByLoc (l : List PagefindAnchor) : List PagefindAnchor := l.foldr insertByLoc []

/-- The fields of a fragment record read by `calculateSubResults`. -/
structure PagefindFragment (α : Type) where
  url : List Nat
  raw_content : Option (List Nat)
  meta : List (List Nat × List Nat)
  anchors : List PagefindAnchor
  weighted_locations : List (WeightedLocation α)
  deriving DecidableEq, Repr

structure SubResult (α : Type) where
  title : Option (List Nat)
  url : List Nat
  anchor : Option PagefindAnchor
  weighted_locations : List (WeightedLocation α)
  locations : List Int
  excerpt : List Nat
  deriving DecidableEq, Repr

/-- `/^((https?:)?\/\/)/.test(url)`. -/
def absoluteUrlTest (url : List Nat) : Bool :=
  (strCodes "//").isPrefixOf url || (strCodes "http://").isPrefixOf url ||
    (strCodes "https://").isPrefixOf url

/-- `fqUrl.hash = id; fqUrl.toString()` (percent-encoding abstracted). -/
def setUrlHash (url : List Nat) (id : List Nat) : List Nat :=
  let base := url.takeWhile (fun c => c ≠ 35)
  if id.isEmpty then base else base ++ 35 :: id

/-- The anchored url computed for a sub-result: absolute urls get the hash
directly; site-relative urls are `/`-prefixed first (the placeholder origin
cancels). -/
def anchoredUrlOf (url : List Nat) (id : List Nat) : List Nat :=
  if absoluteUrlTest url then setUrlHash url id
  else setUrlHash (if url.head? = some 47 then url else 47 :: url) id

/-- Loop state of `calculateSubResults`. -/
structure SegState (α : Type) where
  anchors : List PagefindAnchor
  currentAnchorPosition : Int
  current : SubResult α
  results : List (SubResult α)
  deriving DecidableEq, Repr

section Segmenter

variable {α : Type} [LinearOrderedAddCommGroup α]

/-- The `addResult` closure: push the current section if it has matches,
computing its excerpt scoped to its own offset range.  `endRange ?` is a JS
truthiness test — `0` counts as absent. -/
def addResultState (frag : PagefindFragment α) (desired : Nat) (st : SegState α)
    (endRange : Option Int) : SegState α :=
  if st.current.locations ≠ [] then
    let relativeWeighted : List (WeightedLocation α) :=
      st.current.weighted_locations.map
        (fun l => ⟨l.weight, l.balanced_score, l.location - st.currentAnchorPosition⟩)
    let excerptStart : Int :=
      (calculateExcerptRegion relativeWeighted desired : Int) + st.currentAnchorPosition
    let excerptLength : Int :=
      match endRange with
      | some e => if e = 0 then (desired : Int) else min (e - excerptStart) (desired : Int)
      | none => (desired : Int)
    let excerpt := buildExcerpt (frag.raw_content.getD []) excerptStart excerptLength
      st.current.locations (some st.currentAnchorPosition) endRange
    { st with results := st.results ++ [{ st.current with excerpt := excerpt }] }
  else st

/-- The `while (anchors.length && word.location >= anchors[0].location)` loop. -/
def skipAnchors (cur : PagefindAnchor) (anchors : List PagefindAnchor) (wloc : Int) :
    PagefindAnchor × List PagefindAnchor :=
  match anchors with
  | [] => (cur, [])
  | b :: bs => if b.location ≤ wloc then skipAnchors b bs wloc else (cur, b :: bs)

/-- One iteration of the word loop of `calculateSubResults`. -/
def segStep (frag : PagefindFragment α) (desired : Nat) (st : SegState α)
    (word : WeightedLocation α) : SegState α :=
  match st.anchors with
  | [] =>
    { st with current :=
        { st.current with
            weighted_locations := st.current.weighted_locations ++ [word]
            locations := st.current.locations ++ [word.location] } }
  | a :: rest =>
    if word.location < a.location then
      { st with current :=
          { st.current with
              weighted_locations := st.current.weighted_locations ++ [word]
              locations := st.current.locations ++ [word.location] } }
    else
      let st1 := addResultState frag desired st (some a.location)
      let nx := skipAnchors a rest word.location
      { anchors := nx.2
        currentAnchorPosition := nx.1.location
        current :=
          { title := nx.1.text
            url := anchoredUrlOf frag.url nx.1.id
            anchor := some nx.1
            weighted_locations := [word]
            locations := [word.location]
            excerpt := [] }
        results := st1.results }

/-- `calculateSubResults` from `pagefind-client.ts`. -/
def calculateSubResults (frag : PagefindFragment α) (desired : Nat) :
    List (SubResult α) :=
  let anchors := sortByLoc (frag.anchors.filter isHeadingAnchor)
  let init : SegState α :=
    ⟨anchors, 0,
      ⟨alookup (strCodes "title") frag.meta, frag.url, none, [], [], []⟩, []⟩
  let fin := frag.weighted_locations.foldl (segStep frag desired) init
  (addResultState frag desired fin ((fin.anchors.head?).map (·.location))).results

end Segmenter

section SegmenterProofs

variable {α : Type} [LinearOrderedAddCommGroup α]

theorem segStep_accum (frag : PagefindFragment α) (desired : Nat) (st : SegState α)
    (word : WeightedLocation α)
    (h : st.anchors = [] ∨ ∃ a rest, st.anchors = a :: rest ∧ word.location < a.location) :
    segStep frag desired st word
      = { st with current := { st.current with
            weighted_locations := st.current.weighted_locations ++ [word]
            locations := st.current.locations ++ [word.location] } } := by
  rcases h with h | ⟨a, rest, ha, hlt⟩
  · simp only [segStep, h]
  · simp only [segStep, ha]
    rw [if_pos hlt]

theorem seg_accum_fold (frag : PagefindFragment α) (desired : Nat) :
    ∀ (l : List (WeightedLocation α)) (st : SegState α),
      (∀ w ∈ l, st.anchors = [] ∨ ∃ a rest, st.anchors = a :: rest ∧ w.location < a.location) →
      l.foldl (segStep frag desired) st
        = { st with current := { st.current with
              weighted_locations := st.current.weighted_locations ++ l
              locations := st.current.locations ++ l.map (fun w => w.location) } } := by
  intro l
  induction l with
  | nil =>
    intro st h
    simp
  | cons w rest ih =>
    intro st h
    rw [List.foldl_cons, segStep_accum frag desired st w (h w (by simp))]
    rw [ih { st with current := { st.current with
          weighted_locations := st.current.weighted_locations ++ [w]
          locations := st.current.locations ++ [w.location] } }
      (fun w' hw' => h w' (by simp [hw']))]
    simp [List.append_assoc]

theorem segStep_boundary (frag : PagefindFragment α) (desired : Nat) (st : SegState α)
    (a : PagefindAnchor) (rest : List PagefindAnchor) (word : WeightedLocation α)
    (ha : st.anchors = a :: rest)
    (hge : a.location ≤ word.location)
    (hrest : ∀ b ∈ rest.head?, word.location < b.location) :
    segStep frag desired st word
      = { anchors := rest
          currentAnchorPosition := a.location
          current := ⟨a.text, anchoredUrlOf frag.url a.id, some a, [word], [word.location], []⟩
          results := (addResultState frag desired st (some a.location)).results } := by
  simp only [segStep, ha]
  rw [if_neg (not_lt.mpr hge)]
  have hskip : skipAnchors a rest word.location = (a, rest) := by
    cases rest with
    | nil => rfl
    | cons b bs =>
      unfold skipAnchors
      rw [if_neg (not_le.mpr (hrest b (by simp)))]
  rw [hskip]

theorem addResultState_push (frag : PagefindFragment α) (desired : Nat) (st : SegState α)
    (er : Option Int) (h : st.current.locations ≠ []) :
    ∃ ex, (addResultState frag desired st er).results
        = st.results ++ [{ st.current with excerpt := ex }] := by
  unfold addResultState
  rw [if_pos h]
  exact ⟨_, rfl⟩

theorem addResultState_skip (frag : PagefindFragment α) (desired : Nat) (st : SegState α)
    (er : Option Int) (h : ¬ st.current.locations ≠ []) :
    addResultState frag desired st er = st := by
  unfold addResultState
  rw [if_neg h]

/-- Every section a step leaves in `results` was already there or is the
current section (with its locations), which is only pushed when nonempty. -/
theorem addResultState_mem (frag : PagefindFragment α) (desired : Nat) (st : SegState α)
    (er : Option Int) (s : SubResult α) (hs : s ∈ (addResultState frag desired st er).results) :
    s ∈ st.results ∨ (s.locations = st.current.locations ∧ st.current.locations ≠ []) := by
  by_cases h : st.current.locations ≠ []
  · obtain ⟨ex, hex⟩ := addResultState_push frag desired st er h
    rw [hex] at hs
    rcases List.mem_append.mp hs with h0 | h0
    · exact Or.inl h0
    · rw [List.mem_singleton] at h0
      subst h0
      exact Or.inr ⟨rfl, h⟩
  · rw [addResultState_skip frag desired st er h] at hs
    exact Or.inl hs

theorem segStep_results_nonempty (frag : PagefindFragment α) (desired : Nat)
    (st : SegState α) (word : WeightedLocation α)
    (hinv : ∀ s ∈ st.results, s.locations ≠ []) :
    ∀ s ∈ (segStep frag desired st word).results, s.locations ≠ [] := by
  intro s hs
  unfold segStep at hs
  split at hs
  · exact hinv s hs
  · split at hs
    · exact hinv s hs
    · simp only at hs
      rcases addResultState_mem frag desired st _ s hs with h0 | h0
      · exact hinv s h0
      · rw [h0.1]
        exact h0.2

theorem seg_fold_results_nonempty (frag : PagefindFragment α) (desired : Nat) :
    ∀ (l : List (WeightedLocation α)) (st : SegState α),
      (∀ s ∈ st.results, s.locations ≠ []) →
      ∀ s ∈ (l.foldl (segStep frag desired) st).results, s.locations ≠ [] := by
  intro l
  induction l with
  | nil => intro st hinv; exact hinv
  | cons w rest ih =>
    intro st hinv
    rw [List.foldl_cons]
    exact ih _ (segStep_results_nonempty frag desired st w hinv)

/-- No section with zero matched locations is ever emitted (including the
preamble). -/
theorem calculateSubResults_no_empty_sections (frag : PagefindFragment α)
    (desired : Nat) : ∀ s ∈ calculateSubResults frag desired, s.locations ≠ [] := by
  intro s hs
  unfold calculateSubResults at hs
  simp only at hs
  set fin := frag.weighted_locations.foldl (segStep frag desired)
    ⟨sortByLoc (frag.anchors.filter isHeadingAnchor), 0,
      ⟨alookup (strCodes "title") frag.meta, frag.url, none, [], [], []⟩, []⟩ with hfin
  have hbase : ∀ s' ∈ (⟨sortByLoc (frag.anchors.filter isHeadingAnchor), 0,
      ⟨alookup (strCodes "title") frag.meta, frag.url, none, [], [], []⟩, []⟩ :
      SegState α).results, s'.locations ≠ [] := by
    intro s' hs'
    simp at hs'
  have hinv := seg_fold_results_nonempty frag desired frag.weighted_locations _ hbase
  rcases addResultState_mem frag desired fin _ s hs with h0 | h0
  · exact hinv s h0
  · rw [h0.1]
    exact h0.2

/-- C7: for every fragment whose heading anchors sort to `[a1, a2]` and whose
matched locations split into a nonempty group before `a1.location`, a nonempty
group in `[a1.location, a2.location)`, and a nonempty group at or after
`a2.location`, `calculateSubResults` yields exactly three sections, each
carrying exactly its own group (both the weighted locations and the plain
locations); and for every fragment, a section with zero matched locations —
including the preamble — is never emitted. -/
theorem calculateSubResults_three_sections (frag : PagefindFragment α) (desired : Nat)
    (a1 a2 : PagefindAnchor) (ws1 ws2 ws3 : List (WeightedLocation α))
    (hanch : sortByLoc (frag.anchors.filter isHeadingAnchor) = [a1, a2])
    (hw : frag.weighted_locations = ws1 ++ ws2 ++ ws3)
    (h1 : ∀ w ∈ ws1, w.location < a1.location)
    (h2 : ∀ w ∈ ws2, a1.location ≤ w.location ∧ w.location < a2.location)
    (h3 : ∀ w ∈ ws3, a2.location ≤ w.location)
    (hn1 : ws1 ≠ []) (hn2 : ws2 ≠ []) (hn3 : ws3 ≠ []) :
    (calculateSubResults frag desired).map
        (fun s => (s.locations, s.weighted_locations))
      = [(ws1.map (fun w => w.location), ws1),
         (ws2.map (fun w => w.location), ws2),
         (ws3.map (fun w => w.location), ws3)]
    ∧ ∀ (frag2 : PagefindFragment α) (desired2 : Nat),
        ∀ s ∈ calculateSubResults frag2 desired2, s.locations ≠ [] := by
  refine ⟨?_, fun frag2 desired2 => calculateSubResults_no_empty_sections frag2 desired2⟩
  obtain ⟨w1, ws1', rfl⟩ := List.exists_cons_of_ne_nil hn1
  obtain ⟨w2, ws2', rfl⟩ := List.exists_cons_of_ne_nil hn2
  obtain ⟨w3, ws3', rfl⟩ := List.exists_cons_of_ne_nil hn3
  have hc : calculateSubResults frag desired
      = (addResultState frag desired
          (frag.weighted_locations.foldl (segStep frag desired)
            ⟨sortByLoc (frag.anchors.filter isHeadingAnchor), 0,
              ⟨alookup (strCodes "title") frag.meta, frag.url, none, [], [], []⟩, []⟩)
          ((((frag.weighted_locations.foldl (segStep frag desired)
            ⟨sortByLoc (frag.anchors.filter isHeadingAnchor), 0,
              ⟨alookup (strCodes "title") frag.meta, frag.url, none, [], [], []⟩,
              []⟩)).anchors.head?).map (fun a => a.location))).results := rfl
  rw [hc, hanch, hw]
  rw [List.foldl_append, List.foldl_append]
  have e1 : (w1 :: ws1').foldl (segStep frag desired)
      ⟨[a1, a2], 0, ⟨alookup (strCodes "title") frag.meta, frag.url, none, [], [], []⟩, []⟩
      = ⟨[a1, a2], 0,
          ⟨alookup (strCodes "title") frag.meta, frag.url, none, w1 :: ws1',
            (w1 :: ws1').map (fun w => w.location), []⟩, []⟩ := by
    rw [seg_accum_fold frag desired (w1 :: ws1')
      ⟨[a1, a2], 0, ⟨alookup (strCodes "title") frag.meta, frag.url, none, [], [], []⟩, []⟩
      (fun w hm => Or.inr ⟨a1, [a2], rfl, h1 w hm⟩)]
    rfl
  rw [e1]
  obtain ⟨ex1, hex1⟩ := addResultState_push frag desired
    ⟨[a1, a2], 0,
      ⟨alookup (strCodes "title") frag.meta, frag.url, none, w1 :: ws1',
        (w1 :: ws1').map (fun w => w.location), []⟩, []⟩
    (some a1.location) (by simp)
  have e2 : segStep frag desired
      ⟨[a1, a2], 0,
        ⟨alookup (strCodes "title") frag.meta, frag.url, none, w1 :: ws1',
          (w1 :: ws1').map (fun w => w.location), []⟩, []⟩ w2
      = ⟨[a2], a1.location,
          ⟨a1.text, anchoredUrlOf frag.url a1.id, some a1, [w2], [w2.location], []⟩,
          [⟨alookup (strCodes "title") frag.meta, frag.url, none, w1 :: ws1',
            (w1 :: ws1').map (fun w => w.location), ex1⟩]⟩ := by
    rw [segStep_boundary frag desired
      ⟨[a1, a2], 0,
        ⟨alookup (strCodes "title") frag.meta, frag.url, none, w1 :: ws1',
          (w1 :: ws1').map (fun w => w.location), []⟩, []⟩
      a1 [a2] w2 rfl (h2 w2 (by simp)).1
      (by
        intro b hb
        simp only [List.head?_cons, Option.mem_def, Option.some.injEq] at hb
        subst hb
        exact (h2 w2 (by simp)).2), hex1]
    rfl
  have e3 : ws2'.foldl (segStep frag desired)
      ⟨[a2], a1.location,
        ⟨a1.text, anchoredUrlOf frag.url a1.id, some a1, [w2], [w2.location], []⟩,
        [⟨alookup (strCodes "title") frag.meta, frag.url, none, w1 :: ws1',
          (w1 :: ws1').map (fun w => w.location), ex1⟩]⟩
      = ⟨[a2], a1.location,
          ⟨a1.text, anchoredUrlOf frag.url a1.id, some a1, w2 :: ws2',
            w2.location :: ws2'.map (fun w => w.location), []⟩,
          [⟨alookup (strCodes "title") frag.meta, frag.url, none, w1 :: ws1',
            (w1 :: ws1').map (fun w => w.location), ex1⟩]⟩ := by
    rw [seg_accum_fold frag desired ws2'
      ⟨[a2], a1.location,
        ⟨a1.text, anchoredUrlOf frag.url a1.id, some a1, [w2], [w2.location], []⟩,
        [⟨alookup (strCodes "title") frag.meta, frag.url, none, w1 :: ws1',
          (w1 :: ws1').map (fun w => w.location), ex1⟩]⟩
      (fun w hm => Or.inr ⟨a2, [], rfl, (h2 w (List.mem_cons_of_mem w2 hm)).2⟩)]
    rfl
  have e23 : (w2 :: ws2').foldl (segStep frag desired)
      ⟨[a1, a2], 0,
        ⟨alookup (strCodes "title") frag.meta, frag.url, none, w1 :: ws1',
          (w1 :: ws1').map (fun w => w.location), []⟩, []⟩
      = ⟨[a2], a1.location,
          ⟨a1.text, anchoredUrlOf frag.url a1.id, some a1, w2 :: ws2',
            w2.location :: ws2'.map (fun w => w.location), []⟩,
          [⟨alookup (strCodes "title") frag.meta, frag.url, none, w1 :: ws1',
            (w1 :: ws1').map (fun w => w.location), ex1⟩]⟩ := by
    rw [List.foldl_cons, e2, e3]
  rw [e23]
  obtain ⟨ex2, hex2⟩ := addResultState_push frag desired
    ⟨[a2], a1.location,
      ⟨a1.text, anchoredUrlOf frag.url a1.id, some a1, w2 :: ws2',
        w2.location :: ws2'.map (fun w => w.location), []⟩,
      [⟨alookup (strCodes "title") frag.meta, frag.url, none, w1 :: ws1',
        (w1 :: ws1').map (fun w => w.location), ex1⟩]⟩
    (some a2.location) (by simp)
  have e4 : segStep frag desired
      ⟨[a2], a1.location,
        ⟨a1.text, anchoredUrlOf frag.url a1.id, some a1, w2 :: ws2',
          w2.location :: ws2'.map (fun w => w.location), []⟩,
        [⟨alookup (strCodes "title") frag.meta, frag.url, none, w1 :: ws1',
          (w1 :: ws1').map (fun w => w.location), ex1⟩]⟩ w3
      = ⟨[], a2.location,
          ⟨a2.text, anchoredUrlOf frag.url a2.id, some a2, [w3], [w3.location], []⟩,
          [⟨alookup (strCodes "title") frag.meta, frag.url, none, w1 :: ws1',
            (w1 :: ws1').map (fun w => w.location), ex1⟩,
           ⟨a1.text, anchoredUrlOf frag.url a1.id, some a1, w2 :: ws2',
            w2.location :: ws2'.map (fun w => w.location), ex2⟩]⟩ := by
    rw [segStep_boundary frag desired
      ⟨[a2], a1.location,
        ⟨a1.text, anchoredUrlOf frag.url a1.id, some a1, w2 :: ws2',
          w2.location :: ws2'.map (fun w => w.location), []⟩,
        [⟨alookup (strCodes "title") frag.meta, frag.url, none, w1 :: ws1',
          (w1 :: ws1').map (fun w => w.location), ex1⟩]⟩
      a2 [] w3 rfl (h3 w3 (by simp))
      (by intro b hb; simp at hb), hex2]
    rfl
  have e5 : ws3'.foldl (segStep frag desired)
      ⟨[], a2.location,
        ⟨a2.text, anchoredUrlOf frag.url a2.id, some a2, [w3], [w3.location], []⟩,
        [⟨alookup (strCodes "title") frag.meta, frag.url, none, w1 :: ws1',
          (w1 :: ws1').map (fun w => w.location), ex1⟩,
         ⟨a1.text, anchoredUrlOf frag.url a1.id, some a1, w2 :: ws2',
          w2.location :: ws2'.map (fun w => w.location), ex2⟩]⟩
      = ⟨[], a2.location,
          ⟨a2.text, anchoredUrlOf frag.url a2.id, some a2, w3 :: ws3',
            w3.location :: ws3'.map (fun w => w.location), []⟩,
          [⟨alookup (strCodes "title") frag.meta, frag.url, none, w1 :: ws1',
            (w1 :: ws1').map (fun w => w.location), ex1⟩,
           ⟨a1.text, anchoredUrlOf frag.url a1.id, some a1, w2 :: ws2',
            w2.location :: ws2'.map (fun w => w.location), ex2⟩]⟩ := by
    rw [seg_accum_fold frag desired ws3'
      ⟨[], a2.location,
        ⟨a2.text, anchoredUrlOf frag.url a2.id, some a2, [w3], [w3.location], []⟩,
        [⟨alookup (strCodes "title") frag.meta, frag.url, none, w1 :: ws1',
          (w1 :: ws1').map (fun w => w.location), ex1⟩,
         ⟨a1.text, anchoredUrlOf frag.url a1.id, some a1, w2 :: ws2',
          w2.location :: ws2'.map (fun w => w.location), ex2⟩]⟩
      (fun w _ => Or.inl rfl)]
    rfl
  have e45 : (w3 :: ws3').foldl (segStep frag desired)
      ⟨[a2], a1.location,
        ⟨a1.text, anchoredUrlOf frag.url a1.id, some a1, w2 :: ws2',
          w2.location :: ws2'.map (fun w => w.location), []⟩,
        [⟨alookup (strCodes "title") frag.meta, frag.url, none, w1 :: ws1',
          (w1 :: ws1').map (fun w => w.location), ex1⟩]⟩
      = ⟨[], a2.location,
          ⟨a2.text, anchoredUrlOf frag.url a2.id, some a2, w3 :: ws3',
            w3.location :: ws3'.map (fun w => w.location), []⟩,
          [⟨alookup (strCodes "title") frag.meta, frag.url, none, w1 :: ws1',
            (w1 :: ws1').map (fun w => w.location), ex1⟩,
           ⟨a1.text, anchoredUrlOf frag.url a1.id, some a1, w2 :: ws2',
            w2.location :: ws2'.map (fun w => w.location), ex2⟩]⟩ := by
    rw [List.foldl_cons, e4, e5]
  rw [e45]
  obtain ⟨ex3, hex3⟩ := addResultState_push frag desired
    ⟨[], a2.location,
      ⟨a2.text, anchoredUrlOf frag.url a2.id, some a2, w3 :: ws3',
        w3.location :: ws3'.map (fun w => w.location), []⟩,
      [⟨alookup (strCodes "title") frag.meta, frag.url, none, w1 :: ws1',
        (w1 :: ws1').map (fun w => w.location), ex1⟩,
       ⟨a1.text, anchoredUrlOf frag.url a1.id, some a1, w2 :: ws2',
        w2.location :: ws2'.map (fun w => w.location), ex2⟩]⟩
    (((⟨[], a2.location,
        ⟨a2.text, anchoredUrlOf frag.url a2.id, some a2, w3 :: ws3',
          w3.location :: ws3'.map (fun w => w.location), []⟩,
        [⟨alookup (strCodes "title") frag.meta, frag.url, none, w1 :: ws1',
          (w1 :: ws1').map (fun w => w.location), ex1⟩,
         ⟨a1.text, anchoredUrlOf frag.url a1.id, some a1, w2 :: ws2',
          w2.location :: ws2'.map (fun w => w.location), ex2⟩]⟩ :
        SegState α).anchors.head?).map (fun a => a.location)) (by simp)
  rw [hex3]
  simp

theorem calculateSubResults_three_sections_witness :
    sortByLoc (((⟨strCodes "/page", none, [],
          [⟨strCodes "h2", strCodes "s1", some (strCodes "One"), 5⟩,
           ⟨strCodes "h2", strCodes "s2", some (strCodes "Two"), 10⟩],
          [⟨1, 0, 1⟩, ⟨1, 0, 6⟩, ⟨1, 0, 12⟩]⟩ :
          PagefindFragment Int).anchors).filter isHeadingAnchor)
      = [⟨strCodes "h2", strCodes "s1", some (strCodes "One"), 5⟩,
         ⟨strCodes "h2", strCodes "s2", some (strCodes "Two"), 10⟩]
    ∧ (calculateSubResults (⟨strCodes "/page", none, [],
          [⟨strCodes "h2", strCodes "s1", some (strCodes "One"), 5⟩,
           ⟨strCodes "h2", strCodes "s2", some (strCodes "Two"), 10⟩],
          [⟨1, 0, 1⟩, ⟨1, 0, 6⟩, ⟨1, 0, 12⟩]⟩ :
          PagefindFragment Int) 30).map
        (fun s => (s.locations, s.weighted_locations))
      = [([1], [⟨1, 0, 1⟩]), ([6], [⟨1, 0, 6⟩]), ([12], [⟨1, 0, 12⟩])] :=
  ⟨by decide,
    (calculateSubResults_three_sections
      (⟨strCodes "/page", none, [],
          [⟨strCodes "h2", strCodes "s1", some (strCodes "One"), 5⟩,
           ⟨strCodes "h2", strCodes "s2", some (strCodes "Two"), 10⟩],
          [⟨1, 0, 1⟩, ⟨1, 0, 6⟩, ⟨1, 0, 12⟩]⟩ :
          PagefindFragment Int) 30
      ⟨strCodes "h2", strCodes "s1", some (strCodes "One"), 5⟩
      ⟨strCodes "h2", strCodes "s2", some (strCodes "Two"), 10⟩
      [⟨1, 0, 1⟩] [⟨1, 0, 6⟩] [⟨1, 0, 12⟩]
      (by decide) rfl (by decide) (by decide) (by decide)
      (by decide) (by decide) (by decide)).1⟩

end SegmenterProofs

/-! ## The `search` method

`PagefindClient.search` normalizes the query, short-circuits on an empty
normalized query, asks the engine for the needed index and filter chunks,
loads them through the chunk store, runs the engine search, and parses the
delimited response.  The WASM engine is an oracle (`EngineModel`); IEEE-754
float conversions (`parseFloat`, and the `parseInt(weight)/24` division) are
abstracted into oracle fields since float values are opaque here; the
`Date.now()` timing samples are the parameters `searchTime`/`totalTime`. -/

section SearchModel

variable {α : Type}

/-- The engine oracle backing a `PagefindClient`, plus the two abstracted
float conversions. -/
structure EngineModel (α : Type) where
  requestIndexes : List Nat → List Nat
  requestFilterIndexes : List Nat → List Nat
  wasmSearch : List Nat → List Nat → List Nat → Bool → List Nat
  parseFloat : List Nat → α
  div24 : Option Int → α

/-- One observable engine query call made during `search` (chunk loads are
tracked separately in `ChunkState`). -/
inductive EngineCall where
  | requestIndexes : List Nat → EngineCall
  | requestFilterIndexes : List Nat → EngineCall
  | search : List Nat → List Nat → List Nat → Bool → EngineCall
  deriving DecidableEq, Repr

def isHexDigit (c : Nat) : Bool :=
  (48 ≤ c && c ≤ 57) || (65 ≤ c && c ≤ 70) || (97 ≤ c && c ≤ 102)

def hexDigitVal (c : Nat) : Nat :=
  if c ≤ 57 then c - 48 else if c ≤ 70 then c - 55 else c - 87

def natOfHexDigits (ds : List Nat) : Nat := ds.foldl (fun a d => a * 16 + hexDigitVal d) 0

/-- JS `parseInt(s)` with the radix unspecified: skip leading whitespace, an
optional sign, auto-hex on a `0x`/`0X` prefix, otherwise a leading
decimal-digit run; `none` is `NaN`. -/
def jsParseInt (s : List Nat) : Option Int :=
  let t := s.dropWhile isJsWs
  let sign : Int := if t.head? = some 45 then -1 else 1
  let t1 := if t.head? = some 45 ∨ t.head? = some 43 then t.tail else t
  match t1 with
  | 48 :: 120 :: r =>
    let hs := r.takeWhile isHexDigit
    if hs.isEmpty then none else some (sign * (natOfHexDigits hs : Nat))
  | 48 :: 88 :: r =>
    let hs := r.takeWhile isHexDigit
    if hs.isEmpty then none else some (sign * (natOfHexDigits hs : Nat))
  | _ =>
    let ds := t1.takeWhile isDigit
    if ds.isEmpty then none else some (sign * (natOfDigits ds : Nat))

/-- One backtracking attempt of `(.*)__PF_UNFILTERED_DELIM__(.*)$` on the text
after the second colon: greedy `.*` takes the largest line-terminator-free
prefix `c` such that the delimiter follows and the rest `d` is
line-terminator-free up to the end of the string. -/
def respFindDelim (r : List Nat) : Option (List Nat × List Nat) :=
  ((List.range (r.length + 1)).reverse).findSome? (fun m =>
    if (r.take m).all isRegexDot && unfilteredDelim.isPrefixOf (r.drop m)
        && (r.drop (m + unfilteredDelim.length)).all isRegexDot then
      some (r.take m, r.drop (m + unfilteredDelim.length))
    else none)

/-- Attempt to match `:([^:]*):(.*)__PF_UNFILTERED_DELIM__(.*)$` with the
leading `:` at position `p`: `[^:]*` is forced (the run up to the next colon,
which must exist immediately after it). -/
def respTryAt (s : List Nat) (p : Nat) :
    Option (List Nat × List Nat × List Nat × List Nat) :=
  match s.drop p with
  | 58 :: rest1 =>
    match rest1.dropWhile (fun c => c != 58) with
    | 58 :: rest2 =>
      (respFindDelim rest2).map
        (fun cd => (s.take p, rest1.takeWhile (fun c => c != 58), cd.1, cd.2))
    | _ => none
  | _ => none

/-- `rawResult.split(/:([^:]*):(.*)__PF_UNFILTERED_DELIM__(.*)$/)` as consumed
by the four-element destructuring: on a match the split is
`[prefix, cap1, cap2, cap3, ""]` for the leftmost match, so the destructured
values are the prefix and the three captures; with no match anywhere the split
is `[rawResult]` and `allResults` is `undefined` (`none` here). -/
def respMatch (s : List Nat) : Option (List Nat × List Nat × List Nat × List Nat) :=
  (List.range s.length).findSome? (fun p => respTryAt s p)

/-- The response grammar
`:<no-colon>:<dot-only>__PF_UNFILTERED_DELIM__<dot-only-to-end>` matched
somewhere in the string — exactly the language of the split regex (`.`
excludes line terminators; `$` is end of input). -/
def respDecomp (s : List Nat) : Prop :=
  ∃ a b c d : List Nat,
    s = a ++ 58 :: (b ++ 58 :: (c ++ unfilteredDelim ++ d))
    ∧ (∀ x ∈ b, x ≠ 58) ∧ (∀ x ∈ c, isRegexDot x = true)
    ∧ (∀ x ∈ d, isRegexDot x = true)

/-- A weighted location parsed from one `weight>balancedScore>location` part
of a result entry; a missing part is `undefined`, which the JS number
conversions stringify to `"undefined"` (hence `NaN`). -/
structure WeightedLocJs (α : Type) where
  weight : α
  balanced_score : α
  location : Option Int
  deriving DecidableEq

/-- One entry of `SearchResponse.results`; `weighted` is the location list
captured by the lazy `data()` closure. -/
structure SearchResultM (α : Type) where
  id : List Nat
  score : α
  words : List (Option Int)
  weighted : List (WeightedLocJs α)
  deriving DecidableEq

structure TimingsM where
  preload : Int
  search : Int
  total : Int
  deriving DecidableEq, Repr

structure SearchResponseM (α : Type) where
  results : List (SearchResultM α)
  unfilteredResultCount : Option Int
  filters : List (List Nat × List (List Nat × Nat))
  totalFilters : List (List Nat × List (List Nat × Nat))
  timings : TimingsM
  deriving DecidableEq

/-- One result entry `hash@score@w>b>l,...`: `r.split('@')` destructured into
three parts (extras ignored); with fewer than three parts `allLocations` is
`undefined` and the `allLocations.length` read throws a `TypeError`. -/
def parseResultEntry (eng : EngineModel α) (r : List Nat) :
    Except JsErr (SearchResultM α) :=
  match splitOnSep [64] r with
  | hash :: score :: allLocations :: _ =>
    let wls : List (WeightedLocJs α) :=
      if allLocations.isEmpty then []
      else
        (splitOnSep [44] allLocations).map (fun l =>
          let parts := splitOnSep [62] l
          ⟨eng.div24 (jsParseInt (parts.getD 0 (strCodes "undefined"))),
           eng.parseFloat (parts.getD 1 (strCodes "undefined")),
           jsParseInt (parts.getD 2 (strCodes "undefined"))⟩)
    .ok ⟨hash, eng.parseFloat score, wls.map (fun w => w.location), wls⟩
  | _ => .error .typeError

/-- `allResults.length ? allResults.split(' ').map(...) : []` (no
`filter(Boolean)` here, so empty entries reach the entry parser). -/
def parseResults (eng : EngineModel α) (allResults : List Nat) :
    Except JsErr (List (SearchResultM α)) :=
  if allResults.isEmpty then .ok []
  else (splitOnSep [32] allResults).mapM (parseResultEntry eng)

/-- `PagefindClient.search`: `filterStr`/`sortStr` stand for
`JSON.stringify(options.filters ?? {})` and `stringifySorts(options.sort ?? {})`
(already stringified), and the triple result also returns the chunk store
state and the list of engine query calls made. -/
def searchModel (eng : EngineModel α) (st : ChunkState) (term : List Nat)
    (filterStr sortStr : List Nat) (searchTime totalTime : Int) :
    Except JsErr (SearchResponseM α) × ChunkState × List EngineCall :=
  let exactSearch := exactSearchTest term
  let normalized := normalizeQuery term
  if normalized.isEmpty then
    (.ok ⟨[], some 0, [], [], ⟨0, 0, 0⟩⟩, st, [])
  else
    let indexResp := eng.requestIndexes normalized
    let filterResp := eng.requestFilterIndexes filterStr
    let st1 := ((splitOnSep [32] indexResp).filter (fun h => !h.isEmpty)).foldl
      (fun s h => (loadChunkStep s .index h).1) st
    let st2 := ((splitOnSep [32] filterResp).filter (fun h => !h.isEmpty)).foldl
      (fun s h => (loadChunkStep s .filter h).1) st1
    let raw := eng.wasmSearch normalized filterStr sortStr exactSearch
    let calls := [EngineCall.requestIndexes normalized,
                  EngineCall.requestFilterIndexes filterStr,
                  EngineCall.search normalized filterStr sortStr exactSearch]
    match respMatch raw with
    | none => (.error .typeError, st2, calls)
    | some (unfilteredStr, allResults, filtersStr, totalFiltersStr) =>
      match parseResults eng allResults with
      | .error e => (.error e, st2, calls)
      | .ok results =>
        (.ok ⟨results, jsParseInt unfilteredStr, parseFilters filtersStr,
            parseFilters totalFiltersStr,
            ⟨totalTime - searchTime, searchTime, totalTime⟩⟩, st2, calls)

end SearchModel

section SearchProofs

variable {α : Type}

/-- C2: a query normalizing to the empty string short-circuits: the literal
empty `SearchResponse` (no results, count 0, empty filter maps, all-zero
timings) is returned, the chunk store is untouched (no fetch, no engine chunk
load), and no engine query call is made. -/
theorem search_empty_query_short_circuit (eng : EngineModel α) (st : ChunkState)
    (term filterStr sortStr : List Nat) (searchTime totalTime : Int)
    (h : normalizeQuery term = []) :
    searchModel eng st term filterStr sortStr searchTime totalTime
      = (.ok ⟨[], some 0, [], [], ⟨0, 0, 0⟩⟩, st, []) := by
  simp [searchModel, h]

theorem search_empty_query_short_circuit_witness :
    normalizeQuery (strCodes " ?!? ") = [] ∧
    searchModel (α := Int)
        ⟨fun _ => [], fun _ => [], fun _ _ _ _ => strCodes "ready", fun _ => 0, fun _ => 0⟩
        ChunkState.initial (strCodes " ?!? ") [] [] 3 7
      = (.ok ⟨[], some 0, [], [], ⟨0, 0, 0⟩⟩, ChunkState.initial, []) :=
  ⟨by decide, search_empty_query_short_circuit _ _ _ _ _ _ _ (by decide)⟩

theorem respFindDelim_sound (r : List Nat) (cd : List Nat × List Nat)
    (h : respFindDelim r = some cd) :
    r = cd.1 ++ unfilteredDelim ++ cd.2
      ∧ (∀ x ∈ cd.1, isRegexDot x = true) ∧ (∀ x ∈ cd.2, isRegexDot x = true) := by
  unfold respFindDelim at h
  obtain ⟨m, _, hmm⟩ := List.exists_of_findSome?_eq_some h
  split at hmm
  · rename_i hcond
    rw [Bool.and_eq_true, Bool.and_eq_true] at hcond
    obtain ⟨⟨h1, h2⟩, h3⟩ := hcond
    obtain ⟨t, ht⟩ := (List.isPrefixOf_iff_prefix.mp h2 : unfilteredDelim <+: r.drop m)
    cases hmm
    have htt : t = r.drop (m + unfilteredDelim.length) := by
      have hdd := congrArg (List.drop unfilteredDelim.length) ht
      rw [List.drop_left] at hdd
      rw [hdd, List.drop_drop, Nat.add_comm]
    refine ⟨?_, fun x hx => (List.all_eq_true.mp h1) x hx,
      fun x hx => (List.all_eq_true.mp h3) x hx⟩
    rw [List.append_assoc, ← htt, ht, List.take_append_drop]
  · exact Option.noConfusion hmm

theorem respDecomp_of_respMatch (s : List Nat)
    (q : List Nat × List Nat × List Nat × List Nat)
    (h : respMatch s = some q) : respDecomp s := by
  unfold respMatch at h
  obtain ⟨p, _, hq⟩ := List.exists_of_findSome?_eq_some h
  unfold respTryAt at hq
  split at hq
  · rename_i rest1 hdrop
    split at hq
    · rename_i rest2 hdw
      obtain ⟨cd, hcd, _⟩ := Option.map_eq_some'.mp hq
      obtain ⟨hr2, hc, hd⟩ := respFindDelim_sound rest2 cd hcd
      have hrest1 : rest1 = rest1.takeWhile (fun c => c != 58) ++ 58 :: rest2 := by
        conv_lhs => rw [← List.takeWhile_append_dropWhile (p := fun c => c != 58) (l := rest1)]
        rw [hdw]
      refine ⟨s.take p, rest1.takeWhile (fun c => c != 58), cd.1, cd.2, ?_,
        fun x hx => by simpa using List.mem_takeWhile_imp hx, hc, hd⟩
      conv_lhs => rw [← List.take_append_drop p s, hdrop, hrest1, hr2]
    · exact Option.noConfusion hq
  · exact Option.noConfusion hq

/-- Any string matching the response grammar contains a colon. -/
theorem respDecomp_colon_mem (s : List Nat) (h : respDecomp s) : 58 ∈ s := by
  obtain ⟨a, b, c, d, hs, -, -, -⟩ := h
  rw [hs]
  simp

/-- C6: with a nonempty normalized query, if the engine's raw response matches
the delimiter grammar nowhere, the split leaves `allResults` undefined and the
`allResults.length` read throws a `TypeError`, which `search` surfaces to the
caller instead of returning an empty response. -/
theorem search_malformed_response_surfaced (eng : EngineModel α) (st : ChunkState)
    (term filterStr sortStr : List Nat) (searchTime totalTime : Int)
    (hne : normalizeQuery term ≠ [])
    (hraw : ¬ respDecomp (eng.wasmSearch (normalizeQuery term) filterStr sortStr
        (exactSearchTest term))) :
    (searchModel eng st term filterStr sortStr searchTime totalTime).1
      = Except.error JsErr.typeError := by
  have hnone : respMatch (eng.wasmSearch (normalizeQuery term) filterStr sortStr
      (exactSearchTest term)) = none := by
    cases hm : respMatch (eng.wasmSearch (normalizeQuery term) filterStr sortStr
        (exactSearchTest term)) with
    | none => rfl
    | some q => exact absurd (respDecomp_of_respMatch _ q hm) hraw
  simp [searchModel, hnone, List.isEmpty_iff, hne]

theorem search_malformed_response_surfaced_witness :
    normalizeQuery (strCodes "hello") ≠ [] ∧
    (searchModel (α := Int)
        ⟨fun _ => [], fun _ => [], fun _ _ _ _ => strCodes "nope", fun _ => 0, fun _ => 0⟩
        ChunkState.initial (strCodes "hello") [] [] 3 7).1
      = Except.error JsErr.typeError :=
  ⟨by decide,
   search_malformed_response_surfaced _ _ _ _ _ _ _ (by decide)
     (fun hd => absurd (respDecomp_colon_mem _ hd) (by decide))⟩

end SearchProofs

end Pagefind
